import Mathlib

/-!
The package `lutz`: a lookup table of time-zone offsets.

A shallow embedding of `lutz.go` (package `lutz`): the pipeline
`extr → proc → sort → write` of `GetLookupTable`.

* A Go `string` is modelled as the list of its Unicode code points
  (`GoString := List Char`); Go compares strings bytewise, which on valid
  UTF-8 is the lexicographic order of the code points.
* A channel that is written by one goroutine and drained by one reader is
  modelled as the list of the values sent, in sending order.
* An index-out-of-range panic is modelled as a `Fault` value.
* A call of `log.Fatalf`, which ends the program, is modelled as the flag
  `fatal` of the result of `extr`.
-/

namespace Lutz

/-- A Go string, as the list of its code points. -/
abbrev GoString := List Char

/-- A run-time panic of the Go program: `index out of range [index] with length len`. -/
inductive Fault where
  | indexOutOfRange (index len : Nat)
  deriving DecidableEq, Repr

deriving instance DecidableEq for Except

/-! ## The parts of the Go standard library the program calls -/

/-- The predicate `unicode.IsSpace`: the Unicode White_Space code points. -/
def isSpace (c : Char) : Bool :=
  let n := c.toNat
  (9 ≤ n && n ≤ 13) || n == 32 || n == 0x85 || n == 0xA0 || n == 0x1680 ||
  (0x2000 ≤ n && n ≤ 0x200A) || n == 0x2028 || n == 0x2029 || n == 0x202F ||
  n == 0x205F || n == 0x3000

/-- The function `strings.TrimSpace`: remove leading and trailing white space. -/
def TrimSpace (s : GoString) : GoString :=
  (s.dropWhile isSpace).rdropWhile isSpace

/-- The function `strings.HasPrefix`. -/
def HasPrefix (s pre : GoString) : Bool :=
  pre.isPrefixOf s

/-- The scanning loop of `strings.Fields`: `cur` is the field being read,
most recent character first. -/
def fieldsAux : GoString → GoString → List GoString
  | [], cur => if cur = [] then [] else [cur.reverse]
  | c :: cs, cur =>
    if isSpace c then
      if cur = [] then fieldsAux cs [] else cur.reverse :: fieldsAux cs []
    else fieldsAux cs (c :: cur)

/-- The function `strings.Fields`: the maximal runs of non-space characters. -/
def Fields (s : GoString) : List GoString :=
  fieldsAux s []

/-- The scanning loop of `strings.Split` for a one-character separator. -/
def splitAux (sep : Char) : GoString → GoString → List GoString
  | [], cur => [cur.reverse]
  | c :: cs, cur =>
    if c = sep then cur.reverse :: splitAux sep cs [] else splitAux sep cs (c :: cur)

/-- The function `strings.Split(s, sep)` for a separator of one character, the
only way the program calls it. -/
def Split (s : GoString) (sep : Char) : List GoString :=
  splitAux sep s []

/-- The function `strings.Replace(s, old, new, n)` for `old` of one character
and `n ≥ 0`: the first `n` occurrences of `old` are replaced by `new`. -/
def Replace : GoString → Char → GoString → Nat → GoString
  | [], _, _, _ => []
  | c :: cs, _, _, 0 => c :: cs
  | c :: cs, old, new, n + 1 =>
    if c = old then new ++ Replace cs old new n else c :: Replace cs old new (n + 1)

/-- The call `fmt.Sprintf("%s %s", a, b)`. -/
def Sprintf (a b : GoString) : GoString :=
  a ++ ' ' :: b

/-! ## `formatOffset` -/

/-- The function `formatOffset`: split at `:` and join the first two fields with
a space; `fields[1]` is out of range when the offset has no `:`. -/
def formatOffset (offset : GoString) : Except Fault GoString :=
  match Split offset ':' with
  | [] => .error (.indexOutOfRange 0 0)
  | [_] => .error (.indexOutOfRange 1 1)
  | f0 :: f1 :: _ => .ok (Sprintf f0 f1)

/-! ## `sort` -/

/-- The inner loop of `sort`, `for _, v := range sorted`: the incoming `s` is
appended to `sorted` at the first `v` with `s > v`, and the loop stops there;
when no such `v` exists `sorted` is left as it is. `vs` is what remains of the
range. -/
def insertLoop (sorted : List GoString) (s : GoString) : List GoString → List GoString
  | [] => sorted
  | v :: vs => if v < s then sorted ++ [s] else insertLoop sorted s vs

/-- One iteration of the outer loop of `sort`. -/
def sortStep (sorted : List GoString) (s : GoString) : List GoString :=
  if sorted.length = 0 then sorted ++ [s] else insertLoop sorted s sorted

/-- The function `sort`: drain the channel `inp` into `sorted`. -/
def sort (inp : List GoString) : List GoString :=
  inp.foldl sortStep []

/-! ## `proc` -/

/-- The local variables of the goroutine of `proc` that live across loop
iterations (`fmtOffset` is written and read within one block only). -/
structure ProcState where
  currentZone : GoString
  latestOffset : GoString
  deriving DecidableEq, Repr

/-- What the goroutine of `proc` has done when it stops: the records sent on
`out`, in order, and the panic that stopped it, if any. -/
structure ProcResult where
  out : List GoString
  fault : Option Fault
  deriving DecidableEq, Repr

/-- The block `if currentZone != "" && latestOffset != "" { ... out <- formatted }`,
which occurs at a header line and after the loop: the records it sends. -/
def saveZone (st : ProcState) : Except Fault (List GoString) :=
  if st.currentZone ≠ [] ∧ st.latestOffset ≠ [] then
    match formatOffset st.latestOffset with
    | .error e => .error e
    | .ok fmtOffset => .ok [Sprintf st.currentZone fmtOffset]
  else .ok []

/-- The body of the loop `for s := range in` of `proc`: the records sent while
handling the line `s`, and the next state or the panic. -/
def procLine (st : ProcState) (s : GoString) : List GoString × Except Fault ProcState :=
  let line := TrimSpace s
  if line = [] then ([], .ok st)
  else if HasPrefix line "#".toList then ([], .ok st)
  else if HasPrefix line "Rule".toList then ([], .ok st)
  else if HasPrefix line "Zone".toList then
    match saveZone st with
    | .error e => ([], .error e)
    | .ok sent =>
      match (Fields line)[1]? with
      | none => (sent, .error (.indexOutOfRange 1 (Fields line).length))
      | some zoneName =>
        (sent, .ok { st with currentZone := Replace zoneName ' ' "\t".toList 1 })
  else
    match (Fields line)[0]? with
    | none => ([], .error (.indexOutOfRange 0 0))
    | some f => ([], .ok { st with latestOffset := TrimSpace f })

/-- The loop `for s := range in` of `proc`, from state `st`. -/
def procLines (st : ProcState) : List GoString → List GoString × Except Fault ProcState
  | [] => ([], .ok st)
  | s :: rest =>
    match procLine st s with
    | (sent, .error e) => (sent, .error e)
    | (sent, .ok st1) => (sent ++ (procLines st1 rest).1, (procLines st1 rest).2)

/-- The function `proc`: the loop from the empty state, then the block that
handles the last zone. -/
def proc (inp : List GoString) : ProcResult :=
  match procLines ⟨[], []⟩ inp with
  | (sent, .error e) => ⟨sent, some e⟩
  | (sent, .ok st) =>
    match saveZone st with
    | .error e => ⟨sent, some e⟩
    | .ok last => ⟨sent ++ last, none⟩

/-! ## `extr` -/

/-- The map `Continents`, as its list of key and value pairs. -/
def Continents : List (GoString × GoString) :=
  [("africa".toList, "africa".toList),
   ("antarctica".toList, "antarctica".toList),
   ("asia".toList, "asia".toList),
   ("europe".toList, "europe".toList),
   ("australasia".toList, "australasia".toList),
   ("northamerica".toList, "northamerica".toList),
   ("southamerica".toList, "southamerica".toList)]

/-- The entries of a tar stream in archive order, each an entry name with the
lines of the text of its body, every line ending in one newline character, with
no carriage return before it. -/
abbrev Archive := List (GoString × List GoString)

/-- What the reader handed to `extr` holds: a stream that `gzip.NewReader`
refuses, or a gzip stream with the entries that can be read from its tar content;
`readErr` tells that the stream is cut or corrupt after these entries, so that
the next read, by `tr.Next()` or by the scanner, returns an error that is not
`io.EOF`. -/
inductive Reader where
  | notGzip
  | tar (entries : Archive) (readErr : Bool)
  deriving DecidableEq, Repr

/-- What the goroutine of `extr` has done when it stops: the lines sent on
`out`, in order, and whether it stopped the program through `log.Fatalf`. -/
structure ExtrResult where
  out : List GoString
  fatal : Bool
  deriving DecidableEq, Repr

/-- The constant `bufio.MaxScanTokenSize`, the size of the buffer of a scanner. -/
def MaxScanTokenSize : Nat := 64 * 1024

/-- The length of a string in bytes, the sum of the UTF-8 sizes of its code points. -/
def utf8Len (s : GoString) : Nat :=
  (s.map Char.utf8Size).sum

/-- A line that does not fit the buffer of the scanner together with its
newline; on it `s.Scan()` returns false and `s.Err()` is `bufio.ErrTooLong`. -/
def tooLong (l : GoString) : Bool :=
  decide (MaxScanTokenSize ≤ utf8Len l)

/-- The loop `for s.Scan() { out <- s.Text() }`: `out` is what was sent so far;
the result tells what was sent and whether the scan stopped on a line that is
too long. -/
def scanLoop (out : List GoString) : List GoString → List GoString × Bool
  | [] => (out, false)
  | l :: ls => if tooLong l then (out, true) else scanLoop (out ++ [l]) ls

/-- The loop over the entries of the archive in `extr`: `out` is what was sent
so far. At the end of the entries `tr.Next()` returns `io.EOF`, or the error of
a cut or corrupt stream, which is fatal; an error of the scanner is fatal. -/
def extrLoop (readErr : Bool) (out : List GoString) : Archive → ExtrResult
  | [] => ⟨out, readErr⟩
  | (name, body) :: rest =>
    match Continents.lookup name with
    | none => extrLoop readErr out rest
    | some _ =>
      match scanLoop out body with
      | (out1, true) => ⟨out1, true⟩
      | (out1, false) => extrLoop readErr out1 rest

/-- The function `extr`: the lines sent on its channel, and whether it stopped
the program; an error of `gzip.NewReader` is fatal. -/
def extr : Reader → ExtrResult
  | .notGzip => ⟨[], true⟩
  | .tar entries readErr => extrLoop readErr [] entries

/-! ## `GetLookupTable` -/

/-- An `io.Writer` with state `σ`: `Write` gives the next state and whether the
call returned an error. -/
structure Writer (σ : Type) where
  Write : σ → GoString → σ × Bool

/-- A writer that appends to a buffer and never fails. -/
def bufWriter : Writer GoString :=
  ⟨fun buf p => (buf ++ p, false)⟩

/-- The loop `for _, v := range sorted { w.Write([]byte(v + "\n")) }`; the
result of `Write` is not looked at. -/
def writeLoop {σ : Type} (w : Writer σ) (s : σ) : List GoString → σ
  | [] => s
  | v :: vs => writeLoop w (w.Write s (v ++ "\n".toList)).1 vs

/-- A writer that records the argument of every call of `Write`, and returns an
error on the calls that `fails` selects. -/
def logWriter (fails : GoString → Bool) : Writer (List GoString) :=
  ⟨fun log p => (log ++ [p], fails p)⟩

/-- A Go `error` value; `none` is `nil`. -/
abbrev GoError := Option GoString

/-- The two ways the program stops before `GetLookupTable` returns: `log.Fatalf`
in the goroutine of `extr`, or a panic in the goroutine of `proc`. -/
inductive Abort where
  | fatal
  | panic (f : Fault)
  deriving DecidableEq, Repr

/-- The function `GetLookupTable`: the state of the writer when it returns
together with the `error` it returns, or the way the program stopped before.
When `extr` stops the program its channel is never closed, nothing is written,
and the model reports the fatal exit whatever `proc` did on the lines received. -/
def GetLookupTable {σ : Type} (r : Reader) (w : Writer σ) (s : σ) :
    Except Abort (σ × GoError) :=
  let inp := extr r
  if inp.fatal then .error .fatal
  else
    let out := proc inp.out
    match out.fault with
    | some e => .error (.panic e)
    | none => .ok (writeLoop w s (sort out.out), none)

/-! ## Vocabulary of the statements -/

/-- A line that `proc` drops: its trimmed text is empty or begins with `#` or
with `Rule`. -/
def isSkipLine (s : GoString) : Bool :=
  decide (TrimSpace s = []) || HasPrefix (TrimSpace s) "#".toList ||
    HasPrefix (TrimSpace s) "Rule".toList

/-- A header line: not dropped, and its trimmed text begins with `Zone`. -/
def isHeaderLine (s : GoString) : Bool :=
  !isSkipLine s && HasPrefix (TrimSpace s) "Zone".toList

/-- A continuation line: neither dropped nor a header line. -/
def isContLine (s : GoString) : Bool :=
  !isSkipLine s && !HasPrefix (TrimSpace s) "Zone".toList

/-- The zone name of a header line: its second white-space-delimited field. -/
def zoneOf (s : GoString) : Option GoString :=
  if isHeaderLine s then (Fields (TrimSpace s))[1]? else none

/-- The offset text of a continuation line: its first white-space-delimited field. -/
def offsetOf (s : GoString) : Option GoString :=
  if isContLine s then (Fields (TrimSpace s))[0]? else none

/-- The zone names of the header lines, in input order. -/
def headerZones (lines : List GoString) : List GoString :=
  lines.filterMap zoneOf

/-- The offset texts of the continuation lines, in input order. -/
def contOffsets (lines : List GoString) : List GoString :=
  lines.filterMap offsetOf

/-- The zone name of a record: its text before the first space. -/
def recordZone (r : GoString) : GoString :=
  r.takeWhile (fun c => c != ' ')

/-- The seven names of the region files. -/
def regionNames : List GoString :=
  ["africa".toList, "antarctica".toList, "asia".toList, "europe".toList,
   "australasia".toList, "northamerica".toList, "southamerica".toList]

/-- A line of 70000 bytes. -/
def longLine : GoString :=
  List.replicate 70000 'a'

/-- The lines of the entries named by one of the seven region names, in archive
order and then in within-entry line order. -/
def regionLines (r : Archive) : List GoString :=
  ((r.filter (fun e => decide (e.1 ∈ regionNames))).map Prod.snd).flatten

/-! ## Lemmas on the string functions -/

theorem fieldsAux_mem (s : GoString) : ∀ cur : GoString, (∀ c ∈ cur, isSpace c = false) →
    ∀ f ∈ fieldsAux s cur, f ≠ [] ∧ ∀ c ∈ f, isSpace c = false := by
  induction s with
  | nil =>
    intro cur hcur f hf
    by_cases hc : cur = []
    · simp [fieldsAux, hc] at hf
    · simp only [fieldsAux, hc, if_false, List.mem_singleton] at hf
      subst hf
      exact ⟨by simpa using hc, by simpa using hcur⟩
  | cons c cs ih =>
    intro cur hcur f hf
    by_cases hsp : isSpace c = true
    · by_cases hc : cur = []
      · simp only [fieldsAux, hsp, hc, if_true] at hf
        exact ih [] (by simp) f hf
      · simp only [fieldsAux, hsp, hc, if_true, if_false, List.mem_cons] at hf
        rcases hf with h | h
        · subst h
          exact ⟨by simpa using hc, by simpa using hcur⟩
        · exact ih [] (by simp) f h
    · simp only [fieldsAux, hsp] at hf
      refine ih (c :: cur) ?_ f hf
      intro x hx
      rcases List.mem_cons.1 hx with h | h
      · subst h; simpa using hsp
      · exact hcur x h

theorem Fields_mem {s f : GoString} (hf : f ∈ Fields s) :
    f ≠ [] ∧ ∀ c ∈ f, isSpace c = false :=
  fieldsAux_mem s [] (by simp) f hf

theorem fieldsAux_ne_nil (s : GoString) : ∀ cur : GoString,
    (cur ≠ [] ∨ ∃ c ∈ s, isSpace c = false) → fieldsAux s cur ≠ [] := by
  induction s with
  | nil =>
    intro cur h
    rcases h with h | ⟨c, hc, _⟩
    · simp [fieldsAux, h]
    · simp at hc
  | cons c cs ih =>
    intro cur h
    by_cases hsp : isSpace c = true
    · by_cases hc : cur = []
      · simp only [fieldsAux, hsp, hc, if_true]
        refine ih [] (Or.inr ?_)
        rcases h with h | ⟨d, hd, hds⟩
        · exact absurd hc h
        · rcases List.mem_cons.1 hd with e | e
          · subst e; rw [hsp] at hds; cases hds
          · exact ⟨d, e, hds⟩
      · simp [fieldsAux, hsp, hc]
    · simp only [fieldsAux, hsp]
      exact ih (c :: cur) (Or.inl (by simp))

theorem TrimSpace_ne_nil_exists {s : GoString} (h : TrimSpace s ≠ []) :
    ∃ c ∈ TrimSpace s, isSpace c = false := by
  refine ⟨(TrimSpace s).getLast h, List.getLast_mem h, ?_⟩
  have := List.rdropWhile_last_not isSpace (s.dropWhile isSpace) h
  simpa [TrimSpace] using this

theorem Fields_TrimSpace_ne_nil {s : GoString} (h : TrimSpace s ≠ []) :
    Fields (TrimSpace s) ≠ [] :=
  fieldsAux_ne_nil _ [] (Or.inr (TrimSpace_ne_nil_exists h))

theorem TrimSpace_eq_self {f : GoString} (h : ∀ c ∈ f, isSpace c = false) :
    TrimSpace f = f := by
  have h1 : f.dropWhile isSpace = f := by
    cases f with
    | nil => rfl
    | cons a t => simp [List.dropWhile, h a (by simp)]
  unfold TrimSpace
  rw [h1, List.rdropWhile_eq_self_iff]
  intro hl
  simp [h _ (List.getLast_mem hl)]

theorem Replace_eq_self (old : Char) (new : GoString) (s : GoString) :
    ∀ n : Nat, old ∉ s → Replace s old new n = s := by
  induction s with
  | nil => intro n _; cases n <;> rfl
  | cons c cs ih =>
    intro n h
    cases n with
    | zero => rfl
    | succ n =>
      have hc : c ≠ old := fun e => h (by simp [e])
      have ht : old ∉ cs := fun e => h (List.mem_cons_of_mem _ e)
      simp [Replace, hc, ih (n + 1) ht]

theorem splitAux_append (sep : Char) (h : GoString) : ∀ (cur rest : GoString), sep ∉ h →
    splitAux sep (h ++ rest) cur = splitAux sep rest (h.reverse ++ cur) := by
  induction h with
  | nil => intro cur rest _; rfl
  | cons c cs ih =>
    intro cur rest hn
    have hc : c ≠ sep := fun e => hn (by simp [e])
    have ht : sep ∉ cs := fun e => hn (List.mem_cons_of_mem _ e)
    simp [splitAux, hc, ih (c :: cur) rest ht]

theorem Split_colon (sep : Char) (h m : GoString) (hh : sep ∉ h) (hm : sep ∉ m) :
    Split (h ++ sep :: m) sep = [h, m] := by
  unfold Split
  rw [splitAux_append sep h [] (sep :: m) hh]
  have := splitAux_append sep m [] [] hm
  simp only [List.append_nil] at this
  simp [splitAux, this]

/-! ## Lemmas on `proc` -/

theorem line_cases (s : GoString) :
    isSkipLine s = true ∨ isHeaderLine s = true ∨ isContLine s = true := by
  unfold isHeaderLine isContLine
  cases isSkipLine s <;> cases HasPrefix (TrimSpace s) "Zone".toList <;> simp

theorem isSkipLine_false {s : GoString} (h : isSkipLine s = false) :
    TrimSpace s ≠ [] ∧ HasPrefix (TrimSpace s) "#".toList = false ∧
      HasPrefix (TrimSpace s) "Rule".toList = false := by
  unfold isSkipLine at h
  simpa [Bool.or_eq_false_iff, and_assoc] using h

theorem procLine_skip (st : ProcState) {s : GoString} (h : isSkipLine s = true) :
    procLine st s = ([], .ok st) := by
  unfold isSkipLine at h
  simp only [Bool.or_eq_true, decide_eq_true_eq] at h
  unfold procLine
  by_cases h1 : TrimSpace s = []
  · simp only [h1, if_true]
  · by_cases h2 : HasPrefix (TrimSpace s) "#".toList = true
    · simp only [h1, h2, if_true, if_false]
    · have h3 : HasPrefix (TrimSpace s) "Rule".toList = true := by tauto
      simp only [h1, h2, h3, Bool.false_eq_true, if_true, if_false]

theorem procLine_cont (st : ProcState) {s : GoString} (h : isContLine s = true) :
    ∃ off, offsetOf s = some off ∧ off ≠ [] ∧
      procLine st s = ([], .ok ⟨st.currentZone, off⟩) := by
  unfold isContLine at h
  simp only [Bool.and_eq_true, Bool.not_eq_true'] at h
  obtain ⟨h1, h2, h3⟩ := isSkipLine_false h.1
  have hne := Fields_TrimSpace_ne_nil h1
  obtain ⟨f, fs, hf⟩ := List.exists_cons_of_ne_nil hne
  have hmem : f ∈ Fields (TrimSpace s) := by rw [hf]; simp
  have hfm := Fields_mem hmem
  refine ⟨f, ?_, hfm.1, ?_⟩
  · simp only [offsetOf, isContLine, h.1, h.2, hf, Bool.not_false, Bool.and_self, if_true,
      List.getElem?_cons_zero]
  · simp only [procLine, h1, h2, h3, h.2, hf, TrimSpace_eq_self hfm.2, Bool.false_eq_true,
      if_false, List.getElem?_cons_zero]

theorem procLine_header (st : ProcState) {s : GoString} (h : isHeaderLine s = true) :
    procLine st s =
      match saveZone st with
      | .error e => ([], .error e)
      | .ok sent =>
        match zoneOf s with
        | none => (sent, .error (.indexOutOfRange 1 (Fields (TrimSpace s)).length))
        | some z => (sent, .ok ⟨z, st.latestOffset⟩) := by
  have h0 := h
  unfold isHeaderLine at h
  simp only [Bool.and_eq_true, Bool.not_eq_true'] at h
  obtain ⟨h1, h2, h3⟩ := isSkipLine_false h.1
  simp only [procLine, h1, h2, h3, h.2, zoneOf, h0, Bool.false_eq_true, if_true, if_false]
  cases saveZone st with
  | error e => rfl
  | ok sent =>
    cases hz : (Fields (TrimSpace s))[1]? with
    | none => rfl
    | some z =>
      have hmem : z ∈ Fields (TrimSpace s) := List.getElem?_mem hz
      have hsp : ' ' ∉ z := fun hin => by
        have := (Fields_mem hmem).2 _ hin
        simp [isSpace] at this
      simp [Replace_eq_self ' ' _ z 1 hsp]

theorem zoneOf_spec {s z : GoString} (h : zoneOf s = some z) :
    isHeaderLine s = true ∧ z ≠ [] ∧ ∀ c ∈ z, isSpace c = false := by
  unfold zoneOf at h
  by_cases hh : isHeaderLine s = true
  · simp only [hh, if_true] at h
    exact ⟨hh, Fields_mem (List.getElem?_mem h)⟩
  · simp [hh] at h

theorem zoneOf_of_not_header {s : GoString} (h : isHeaderLine s = false) : zoneOf s = none := by
  simp [zoneOf, h]

theorem offsetOf_of_not_cont {s : GoString} (h : isContLine s = false) : offsetOf s = none := by
  simp [offsetOf, h]

theorem kinds_of_skip {s : GoString} (h : isSkipLine s = true) :
    isHeaderLine s = false ∧ isContLine s = false := by
  simp [isHeaderLine, isContLine, h]

theorem kinds_of_header {s : GoString} (h : isHeaderLine s = true) :
    isSkipLine s = false ∧ isContLine s = false := by
  unfold isHeaderLine at h
  simp only [Bool.and_eq_true, Bool.not_eq_true'] at h
  simp only [isContLine, h.1, h.2, Bool.not_true, Bool.and_false, and_self]

theorem kinds_of_cont {s : GoString} (h : isContLine s = true) :
    isSkipLine s = false ∧ isHeaderLine s = false := by
  unfold isContLine at h
  simp only [Bool.and_eq_true, Bool.not_eq_true'] at h
  simp only [isHeaderLine, h.1, h.2, Bool.and_false, and_self]

theorem saveZone_ok {st : ProcState} {sent : List GoString} (h : saveZone st = .ok sent) :
    (sent = [] ∧ (st.currentZone = [] ∨ st.latestOffset = [])) ∨
    (st.currentZone ≠ [] ∧ st.latestOffset ≠ [] ∧ ∃ hh m rest,
      Split st.latestOffset ':' = hh :: m :: rest ∧
      sent = [Sprintf st.currentZone (Sprintf hh m)]) := by
  unfold saveZone at h
  by_cases hc : st.currentZone ≠ [] ∧ st.latestOffset ≠ []
  · right
    refine ⟨hc.1, hc.2, ?_⟩
    simp only [hc, ne_eq, not_false_eq_true, and_self, if_true] at h
    unfold formatOffset at h
    cases hs : Split st.latestOffset ':' with
    | nil => simp [hs] at h
    | cons a t =>
      cases t with
      | nil => simp [hs] at h
      | cons b u =>
        simp only [hs] at h
        refine ⟨a, b, u, rfl, ?_⟩
        injection h with h
        exact h.symm
  · left
    simp only [hc, if_false] at h
    injection h with h
    refine ⟨h.symm, ?_⟩
    by_contra hcon
    push_neg at hcon
    exact hc hcon

theorem saveZone_of_nil_offset {st : ProcState} (h : st.latestOffset = []) :
    saveZone st = .ok [] := by
  simp [saveZone, h]

theorem saveZone_of_nil_zone {st : ProcState} (h : st.currentZone = []) :
    saveZone st = .ok [] := by
  simp [saveZone, h]

theorem procLines_cons (st : ProcState) (s : GoString) (rest : List GoString) :
    procLines st (s :: rest) =
      match procLine st s with
      | (sent, .error e) => (sent, .error e)
      | (sent, .ok st1) => (sent ++ (procLines st1 rest).1, (procLines st1 rest).2) := rfl

theorem procLines_skip_cons (st : ProcState) {s : GoString} (rest : List GoString)
    (h : isSkipLine s = true) : procLines st (s :: rest) = procLines st rest := by
  simp [procLines, procLine_skip st h]

theorem procLines_skip_insert {l : GoString} (h : isSkipLine l = true) (pre post : List GoString) :
    ∀ st : ProcState, procLines st (pre ++ l :: post) = procLines st (pre ++ post) := by
  induction pre with
  | nil => intro st; exact procLines_skip_cons st post h
  | cons a t ih =>
    intro st
    rw [List.cons_append, List.cons_append, procLines_cons, procLines_cons]
    cases hp : procLine st a with
    | mk sent res =>
      cases res with
      | error e => rfl
      | ok st1 => simp only [ih st1]

theorem procLines_conts (conts : List GoString) (hc : ∀ c ∈ conts, isContLine c = true) :
    ∀ st : ProcState, ∃ lo, procLines st conts = ([], .ok ⟨st.currentZone, lo⟩) := by
  induction conts with
  | nil => intro st; exact ⟨st.latestOffset, rfl⟩
  | cons a t ih =>
    intro st
    obtain ⟨off, _, _, hp⟩ := procLine_cont st (hc a (by simp))
    obtain ⟨lo, hlo⟩ := ih (fun c hcm => hc c (List.mem_cons_of_mem _ hcm)) ⟨st.currentZone, off⟩
    exact ⟨lo, by simp [procLines, hp, hlo]⟩

theorem procLines_append (a b : List GoString) : ∀ st : ProcState,
    procLines st (a ++ b) =
      match procLines st a with
      | (sent, .error e) => (sent, .error e)
      | (sent, .ok st1) => (sent ++ (procLines st1 b).1, (procLines st1 b).2) := by
  induction a with
  | nil => intro st; simp [procLines]
  | cons x t ih =>
    intro st
    rw [List.cons_append, procLines_cons, procLines_cons]
    cases hp : procLine st x with
    | mk sent res =>
      cases res with
      | error e => rfl
      | ok st1 =>
        simp only [ih st1]
        cases hq : procLines st1 t with
        | mk sent2 res2 =>
          cases res2 with
          | error e => rfl
          | ok st2 => simp only [List.append_assoc]

theorem getLast?_cons_getD {α : Type} (a d : α) (l : List α) :
    ((a :: l).getLast?).getD d = (l.getLast?).getD a := by
  cases l with
  | nil => rfl
  | cons b t =>
    rw [List.getLast?_cons_cons]
    cases h : (b :: t).getLast? with
    | none => simp at h
    | some x => rfl

theorem getD_ne_nil {l : List GoString} (h : (l.getLast?).getD [] ≠ []) :
    l.getLast? = some ((l.getLast?).getD []) := by
  cases hl : l.getLast? with
  | none => simp [hl] at h
  | some x => rfl

theorem headerZones_cons_none {s : GoString} (rest : List GoString) (h : zoneOf s = none) :
    headerZones (s :: rest) = headerZones rest := by
  simp [headerZones, List.filterMap_cons, h]

theorem headerZones_cons_some {s z : GoString} (rest : List GoString) (h : zoneOf s = some z) :
    headerZones (s :: rest) = z :: headerZones rest := by
  simp [headerZones, List.filterMap_cons, h]

theorem contOffsets_cons_none {s : GoString} (rest : List GoString) (h : offsetOf s = none) :
    contOffsets (s :: rest) = contOffsets rest := by
  simp [contOffsets, List.filterMap_cons, h]

theorem contOffsets_cons_some {s off : GoString} (rest : List GoString)
    (h : offsetOf s = some off) : contOffsets (s :: rest) = off :: contOffsets rest := by
  simp [contOffsets, List.filterMap_cons, h]

/-- The state after the loop: the zone of the last header line and the offset of
the last continuation line consumed, or the initial values. -/
theorem procLines_state (lines : List GoString) : ∀ (st st1 : ProcState),
    (procLines st lines).2 = .ok st1 →
    st1.currentZone = ((headerZones lines).getLast?).getD st.currentZone ∧
    st1.latestOffset = ((contOffsets lines).getLast?).getD st.latestOffset := by
  induction lines with
  | nil =>
    intro st st1 h
    simp only [procLines] at h
    injection h with h
    subst h
    exact ⟨rfl, rfl⟩
  | cons s rest ih =>
    intro st st1 h
    rw [procLines_cons] at h
    rcases line_cases s with hk | hk | hk
    · rw [procLine_skip st hk] at h
      rw [headerZones_cons_none rest (zoneOf_of_not_header (kinds_of_skip hk).1),
        contOffsets_cons_none rest (offsetOf_of_not_cont (kinds_of_skip hk).2)]
      exact ih st st1 h
    · rw [procLine_header st hk] at h
      cases hs : saveZone st with
      | error e => simp [hs] at h
      | ok sent =>
        cases hz : zoneOf s with
        | none => simp [hs, hz] at h
        | some z =>
          simp only [hs, hz] at h
          rw [headerZones_cons_some rest hz,
            contOffsets_cons_none rest (offsetOf_of_not_cont (kinds_of_header hk).2),
            getLast?_cons_getD]
          exact ih ⟨z, st.latestOffset⟩ st1 h
    · obtain ⟨off, ho, _, hp⟩ := procLine_cont st hk
      rw [hp] at h
      rw [headerZones_cons_none rest (zoneOf_of_not_header (kinds_of_cont hk).2),
        contOffsets_cons_some rest ho, getLast?_cons_getD]
      exact ih ⟨st.currentZone, off⟩ st1 h

/-- Every record sent in the loop is sent at a header line, from the zone of the
last header line before it and the offset of the last continuation line before it. -/
theorem procLines_sent (lines : List GoString) : ∀ (st : ProcState) (r : GoString),
    r ∈ (procLines st lines).1 →
    ∃ pre s post hh m rest, lines = pre ++ s :: post ∧ isHeaderLine s = true ∧
      ((headerZones pre).getLast?).getD st.currentZone ≠ [] ∧
      ((contOffsets pre).getLast?).getD st.latestOffset ≠ [] ∧
      Split (((contOffsets pre).getLast?).getD st.latestOffset) ':' = hh :: m :: rest ∧
      r = Sprintf (((headerZones pre).getLast?).getD st.currentZone) (Sprintf hh m) := by
  induction lines with
  | nil => intro st r h; simp [procLines] at h
  | cons s0 tl ih =>
    intro st r h
    rw [procLines_cons] at h
    have here : ∀ sent, saveZone st = .ok sent → isHeaderLine s0 = true → r ∈ sent →
        ∃ pre s post hh m rest, s0 :: tl = pre ++ s :: post ∧ isHeaderLine s = true ∧
          ((headerZones pre).getLast?).getD st.currentZone ≠ [] ∧
          ((contOffsets pre).getLast?).getD st.latestOffset ≠ [] ∧
          Split (((contOffsets pre).getLast?).getD st.latestOffset) ':' = hh :: m :: rest ∧
          r = Sprintf (((headerZones pre).getLast?).getD st.currentZone) (Sprintf hh m) := by
      intro sent hs hk hr
      rcases saveZone_ok hs with ⟨he, _⟩ | ⟨hz, ho, hh, m, rest, hsp, he⟩
      · rw [he] at hr; simp at hr
      · rw [he] at hr
        refine ⟨[], s0, tl, hh, m, rest, rfl, hk, hz, ho, hsp, ?_⟩
        simpa using hr
    rcases line_cases s0 with hk | hk | hk
    · rw [procLine_skip st hk] at h
      obtain ⟨pre, s, post, hh, m, rest, hl, hs, hz, ho, hsp, hr⟩ := ih st r (by simpa using h)
      refine ⟨s0 :: pre, s, post, hh, m, rest, by rw [hl]; rfl, hs, ?_⟩
      rw [headerZones_cons_none pre (zoneOf_of_not_header (kinds_of_skip hk).1),
        contOffsets_cons_none pre (offsetOf_of_not_cont (kinds_of_skip hk).2)]
      exact ⟨hz, ho, hsp, hr⟩
    · rw [procLine_header st hk] at h
      cases hs : saveZone st with
      | error e => simp [hs] at h
      | ok sent =>
        cases hz : zoneOf s0 with
        | none =>
          simp only [hs, hz] at h
          exact here sent hs hk h
        | some z =>
          simp only [hs, hz, List.mem_append] at h
          rcases h with h | h
          · exact here sent hs hk h
          · obtain ⟨pre, s, post, hh, m, rest, hl, hs1, hz1, ho, hsp, hr⟩ :=
              ih ⟨z, st.latestOffset⟩ r h
            refine ⟨s0 :: pre, s, post, hh, m, rest, by rw [hl]; rfl, hs1, ?_⟩
            rw [headerZones_cons_some pre hz,
              contOffsets_cons_none pre (offsetOf_of_not_cont (kinds_of_header hk).2),
              getLast?_cons_getD]
            exact ⟨hz1, ho, hsp, hr⟩
    · obtain ⟨off, hof, _, hp⟩ := procLine_cont st hk
      rw [hp] at h
      obtain ⟨pre, s, post, hh, m, rest, hl, hs, hz, ho, hsp, hr⟩ :=
        ih ⟨st.currentZone, off⟩ r (by simpa using h)
      refine ⟨s0 :: pre, s, post, hh, m, rest, by rw [hl]; rfl, hs, ?_⟩
      rw [headerZones_cons_none pre (zoneOf_of_not_header (kinds_of_cont hk).2),
        contOffsets_cons_some pre hof, getLast?_cons_getD]
      exact ⟨hz, ho, hsp, hr⟩

/-- Every record `proc` sends is sent at a closing point of the input, a header
line or the end, from the zone of the last header line before that point and the
offset of the last continuation line before that point. -/
theorem proc_out_char (lines : List GoString) (r : GoString) (hr : r ∈ (proc lines).out) :
    ∃ pre post z off hh m rest, lines = pre ++ post ∧
      (post = [] ∨ ∃ s t, post = s :: t ∧ isHeaderLine s = true) ∧
      (headerZones pre).getLast? = some z ∧ (contOffsets pre).getLast? = some off ∧
      Split off ':' = hh :: m :: rest ∧ r = Sprintf z (Sprintf hh m) := by
  have loop : r ∈ (procLines ⟨[], []⟩ lines).1 → ∃ pre post z off hh m rest,
      lines = pre ++ post ∧ (post = [] ∨ ∃ s t, post = s :: t ∧ isHeaderLine s = true) ∧
      (headerZones pre).getLast? = some z ∧ (contOffsets pre).getLast? = some off ∧
      Split off ':' = hh :: m :: rest ∧ r = Sprintf z (Sprintf hh m) := by
    intro h
    obtain ⟨pre, s, post, hh, m, rest, hl, hs, hz, ho, hsp, he⟩ := procLines_sent lines _ r h
    exact ⟨pre, s :: post, _, _, hh, m, rest, hl, Or.inr ⟨s, post, rfl, hs⟩,
      getD_ne_nil hz, getD_ne_nil ho, hsp, he⟩
  unfold proc at hr
  cases hpl : procLines ⟨[], []⟩ lines with
  | mk sent res =>
    rw [hpl] at hr loop
    cases res with
    | error e => exact loop hr
    | ok st =>
      have hst := procLines_state lines ⟨[], []⟩ st (by rw [hpl])
      cases hs : saveZone st with
      | error e =>
        simp only [hs] at hr
        exact loop hr
      | ok last =>
        simp only [hs, List.mem_append] at hr
        rcases hr with hr | hr
        · exact loop hr
        · rcases saveZone_ok hs with ⟨he, _⟩ | ⟨hz, ho, hh, m, rest, hsp, he⟩
          · rw [he] at hr; simp at hr
          · rw [hst.1] at hz he
            rw [hst.2] at ho hsp
            rw [he] at hr
            refine ⟨lines, [], _, _, hh, m, rest, by simp, Or.inl rfl,
              getD_ne_nil hz, getD_ne_nil ho, hsp, ?_⟩
            simpa using hr

theorem recordZone_Sprintf (z f : GoString) (h : ' ' ∉ z) :
    recordZone (Sprintf z f) = z := by
  induction z with
  | nil => simp [recordZone, Sprintf]
  | cons c t ih =>
    have hc : c ≠ ' ' := fun e => h (by simp [e])
    have ht : ' ' ∉ t := fun e => h (List.mem_cons_of_mem _ e)
    have := ih ht
    simp only [recordZone, Sprintf] at this ⊢
    simp [List.takeWhile_cons, hc, this]

theorem zoneOf_no_space {s z : GoString} (h : zoneOf s = some z) : ' ' ∉ z := by
  intro hin
  have := (zoneOf_spec h).2.2 _ hin
  simp [isSpace] at this

theorem saveZone_zones {st : ProcState} {sent : List GoString} (h : saveZone st = .ok sent)
    (hsp : ' ' ∉ st.currentZone) :
    List.Sublist (sent.map recordZone) (if st.currentZone = [] then [] else [st.currentZone]) := by
  rcases saveZone_ok h with ⟨he, _⟩ | ⟨hz, _, hh, m, rest, _, he⟩
  · rw [he]; simp
  · rw [he]
    simp [hz, recordZone_Sprintf _ _ hsp]

/-- The zone names of the records sent in the loop, followed by the zone still
open, form a subsequence of the zone open at the start followed by the zone
names of the header lines. -/
theorem procLines_zones (lines : List GoString) : ∀ (st st1 : ProcState),
    ' ' ∉ st.currentZone → (procLines st lines).2 = .ok st1 →
    ' ' ∉ st1.currentZone ∧
    List.Sublist
      ((procLines st lines).1.map recordZone ++
        (if st1.currentZone = [] then [] else [st1.currentZone]))
      ((if st.currentZone = [] then [] else [st.currentZone]) ++ headerZones lines) := by
  induction lines with
  | nil =>
    intro st st1 hsp h
    simp only [procLines] at h
    injection h with h
    subst h
    exact ⟨hsp, by simp [procLines, headerZones]⟩
  | cons s rest ih =>
    intro st st1 hsp h
    rcases line_cases s with hk | hk | hk
    · rw [procLines_skip_cons st rest hk] at h ⊢
      rw [headerZones_cons_none rest (zoneOf_of_not_header (kinds_of_skip hk).1)]
      exact ih st st1 hsp h
    · have e := procLines_cons st s rest
      rw [procLine_header st hk] at e
      cases hs : saveZone st with
      | error e1 =>
        rw [hs] at e
        rw [e] at h
        cases h
      | ok sent =>
        cases hz : zoneOf s with
        | none =>
          rw [hs, hz] at e
          rw [e] at h
          cases h
        | some z =>
          rw [hs, hz] at e
          simp only at e
          rw [e] at h ⊢
          have hzs := zoneOf_no_space hz
          have hzne := (zoneOf_spec hz).2.1
          obtain ⟨h1, h2⟩ := ih ⟨z, st.latestOffset⟩ st1 hzs h
          refine ⟨h1, ?_⟩
          rw [headerZones_cons_some rest hz]
          simp only [hzne, if_false] at h2
          simp only [List.map_append, List.append_assoc]
          exact List.Sublist.append (saveZone_zones hs hsp) h2
    · obtain ⟨off, _, _, hp⟩ := procLine_cont st hk
      have e : procLines st (s :: rest) = procLines ⟨st.currentZone, off⟩ rest := by
        rw [procLines_cons, hp]
        simp
      rw [e] at h ⊢
      rw [headerZones_cons_none rest (zoneOf_of_not_header (kinds_of_cont hk).2)]
      exact ih ⟨st.currentZone, off⟩ st1 hsp h

theorem headerZones_length_le (lines : List GoString) :
    (headerZones lines).length ≤ (lines.filter isHeaderLine).length := by
  induction lines with
  | nil => simp [headerZones]
  | cons s rest ih =>
    cases hz : zoneOf s with
    | none =>
      rw [headerZones_cons_none rest hz]
      exact le_trans ih (List.Sublist.length_le
        (List.Sublist.filter _ (List.sublist_cons_self s rest)))
    | some z =>
      rw [headerZones_cons_some rest hz, List.filter_cons_of_pos (zoneOf_spec hz).1]
      simpa using ih

/-- The loop sends nothing while it has met no header line. -/
theorem procLines_no_header (lines : List GoString)
    (hn : ∀ s ∈ lines, isHeaderLine s = false) : ∀ st : ProcState,
    (procLines st lines).1 = [] := by
  induction lines with
  | nil => intro st; rfl
  | cons s rest ih =>
    intro st
    have hrest : ∀ x ∈ rest, isHeaderLine x = false :=
      fun x hx => hn x (List.mem_cons_of_mem _ hx)
    rcases line_cases s with hk | hk | hk
    · rw [procLines_skip_cons st rest hk]
      exact ih hrest st
    · rw [hn s (by simp)] at hk
      cases hk
    · obtain ⟨off, _, _, hp⟩ := procLine_cont st hk
      rw [procLines_cons, hp]
      simpa using ih hrest ⟨st.currentZone, off⟩

/-- The loop sends nothing while it has met no continuation line. -/
theorem procLines_no_cont (lines : List GoString)
    (hn : ∀ s ∈ lines, isContLine s = false) : ∀ st : ProcState, st.latestOffset = [] →
    (procLines st lines).1 = [] ∧
      ∀ st1, (procLines st lines).2 = .ok st1 → st1.latestOffset = [] := by
  induction lines with
  | nil =>
    intro st h0
    refine ⟨rfl, ?_⟩
    intro st1 h
    simp only [procLines] at h
    injection h with h
    subst h
    exact h0
  | cons s rest ih =>
    intro st h0
    have hrest : ∀ x ∈ rest, isContLine x = false :=
      fun x hx => hn x (List.mem_cons_of_mem _ hx)
    rcases line_cases s with hk | hk | hk
    · rw [procLines_skip_cons st rest hk]
      exact ih hrest st h0
    · rw [procLines_cons, procLine_header st hk, saveZone_of_nil_offset h0]
      cases hz : zoneOf s with
      | none =>
        refine ⟨rfl, ?_⟩
        intro st1 h
        cases h
      | some z =>
        simpa using ih hrest ⟨z, st.latestOffset⟩ h0
    · rw [hn s (by simp)] at hk
      cases hk

/-! ## Lemmas on `extr` -/

theorem utf8Len_replicate (n : Nat) : utf8Len (List.replicate n 'a') = n := by
  induction n with
  | zero => rfl
  | succ k ih =>
    have h1 : Char.utf8Size 'a' = 1 := by decide
    simp only [utf8Len, List.replicate_succ, List.map_cons, List.sum_cons, h1] at ih ⊢
    omega

/-- The scan loop sends a prefix of the lines of the body, all of them when it
does not stop on an error, and it stops on an error exactly when a line is too
long. -/
theorem scanLoop_spec (body : List GoString) : ∀ out : List GoString,
    ∃ k, (scanLoop out body).1 = out ++ k ∧ k <+: body ∧
      ((scanLoop out body).2 = false → k = body) ∧
      ((scanLoop out body).2 = true ↔ ∃ l ∈ body, tooLong l = true) := by
  induction body with
  | nil =>
    intro out
    refine ⟨[], ?_, ?_, ?_, ?_⟩ <;> simp [scanLoop]
  | cons l ls ih =>
    intro out
    by_cases hl : tooLong l = true
    · have e : scanLoop out (l :: ls) = (out, true) := by simp [scanLoop, hl]
      rw [e]
      refine ⟨[], ?_, ?_, ?_, ?_⟩
      · simp
      · exact List.nil_prefix
      · intro h; cases h
      · exact ⟨fun _ => ⟨l, by simp, hl⟩, fun _ => rfl⟩
    · have e : scanLoop out (l :: ls) = scanLoop (out ++ [l]) ls := by simp [scanLoop, hl]
      rw [e]
      obtain ⟨k, h1, h2, h3, h4⟩ := ih (out ++ [l])
      refine ⟨l :: k, ?_, ?_, ?_, ?_⟩
      · rw [h1]; simp
      · obtain ⟨t, ht⟩ := h2
        exact ⟨t, by rw [← ht]; rfl⟩
      · intro h; rw [h3 h]
      · rw [h4]
        constructor
        · rintro ⟨x, hx, hxl⟩
          exact ⟨x, List.mem_cons_of_mem _ hx, hxl⟩
        · rintro ⟨x, hx, hxl⟩
          rcases List.mem_cons.1 hx with e1 | e1
          · subst e1; exact absurd hxl hl
          · exact ⟨x, e1, hxl⟩

theorem lookup_Continents (name : GoString) :
    (Continents.lookup name).isSome = decide (name ∈ regionNames) := by
  simp only [Continents, regionNames, List.lookup]
  by_cases h1 : name = "africa".toList
  · subst h1; rfl
  by_cases h2 : name = "antarctica".toList
  · subst h2; rfl
  by_cases h3 : name = "asia".toList
  · subst h3; rfl
  by_cases h4 : name = "europe".toList
  · subst h4; rfl
  by_cases h5 : name = "australasia".toList
  · subst h5; rfl
  by_cases h6 : name = "northamerica".toList
  · subst h6; rfl
  by_cases h7 : name = "southamerica".toList
  · subst h7; rfl
  have e : ∀ k : GoString, name ≠ k → (name == k) = false := fun k hk => by simpa using hk
  simp only [e _ h1, e _ h2, e _ h3, e _ h4, e _ h5, e _ h6, e _ h7, List.mem_cons, h1, h2,
    h3, h4, h5, h6, h7, List.mem_nil_iff, or_self, decide_False, Option.isSome_none,
    List.not_mem_nil]

theorem tooLong_eq_false {l : GoString} (h : utf8Len l < MaxScanTokenSize) :
    tooLong l = false := by
  simp only [tooLong, decide_eq_false_iff_not]
  omega

theorem scanLoop_eq (body : List GoString) (h : ∀ l ∈ body, utf8Len l < MaxScanTokenSize) :
    ∀ out : List GoString, scanLoop out body = (out ++ body, false) := by
  induction body with
  | nil => intro out; simp [scanLoop]
  | cons l ls ih =>
    intro out
    have hl := tooLong_eq_false (h l (by simp))
    simp only [scanLoop, hl, Bool.false_eq_true, if_false]
    rw [ih (fun x hx => h x (List.mem_cons_of_mem _ hx))]
    simp

theorem regionLines_cons_of_mem {name : GoString} (body : List GoString) (rest : Archive)
    (h : name ∈ regionNames) :
    regionLines ((name, body) :: rest) = body ++ regionLines rest := by
  simp [regionLines, List.filter_cons, h]

theorem regionLines_cons_of_not_mem {name : GoString} (body : List GoString) (rest : Archive)
    (h : name ∉ regionNames) :
    regionLines ((name, body) :: rest) = regionLines rest := by
  simp [regionLines, List.filter_cons, h]

/-- The loop over the entries sends a prefix of the lines of the region entries,
all of them when it does not stop the program, and it stops the program exactly
on a read error or on a line of a region entry that is too long. -/
theorem extrLoop_spec (readErr : Bool) (r : Archive) : ∀ out : List GoString,
    ∃ k, (extrLoop readErr out r).out = out ++ k ∧ k <+: regionLines r ∧
      ((extrLoop readErr out r).fatal = false → k = regionLines r) ∧
      ((extrLoop readErr out r).fatal = true ↔
        (readErr = true ∨ ∃ e ∈ r, e.1 ∈ regionNames ∧ ∃ l ∈ e.2, tooLong l = true)) := by
  induction r with
  | nil =>
    intro out
    refine ⟨[], ?_, ?_, ?_, ?_⟩ <;> simp [extrLoop, regionLines]
  | cons e rest ih =>
    intro out
    obtain ⟨name, body⟩ := e
    have hl := lookup_Continents name
    cases hc : Continents.lookup name with
    | none =>
      rw [hc] at hl
      have hn : name ∉ regionNames := by simpa using hl.symm
      have e : extrLoop readErr out ((name, body) :: rest) = extrLoop readErr out rest := by
        simp only [extrLoop, hc]
      obtain ⟨k, h1, h2, h3, h4⟩ := ih out
      rw [e, regionLines_cons_of_not_mem body rest hn]
      refine ⟨k, h1, h2, h3, ?_⟩
      rw [h4]
      constructor
      · rintro (h | ⟨x, hx, hxn, hxl⟩)
        · exact Or.inl h
        · exact Or.inr ⟨x, List.mem_cons_of_mem _ hx, hxn, hxl⟩
      · rintro (h | ⟨x, hx, hxn, hxl⟩)
        · exact Or.inl h
        · rcases List.mem_cons.1 hx with e1 | e1
          · subst e1; exact absurd hxn hn
          · exact Or.inr ⟨x, e1, hxn, hxl⟩
    | some v =>
      rw [hc] at hl
      have hn : name ∈ regionNames := by simpa using hl.symm
      obtain ⟨kb, b1, b2, b3, b4⟩ := scanLoop_spec body out
      rw [regionLines_cons_of_mem body rest hn]
      cases hsl : scanLoop out body with
      | mk out1 flag =>
        rw [hsl] at b1 b3 b4
        cases flag with
        | true =>
          have e : extrLoop readErr out ((name, body) :: rest) = ⟨out1, true⟩ := by
            simp only [extrLoop, hc, hsl]
          rw [e]
          refine ⟨kb, ?_, ?_, ?_, ?_⟩
          · exact b1
          · obtain ⟨t, ht⟩ := b2
            exact ⟨t ++ regionLines rest, by rw [← ht]; simp⟩
          · intro h; cases h
          · obtain ⟨l, hlm, hll⟩ := b4.1 rfl
            exact ⟨fun _ => Or.inr ⟨(name, body), by simp, hn, l, hlm, hll⟩, fun _ => rfl⟩
        | false =>
          have e : extrLoop readErr out ((name, body) :: rest) = extrLoop readErr out1 rest := by
            simp only [extrLoop, hc, hsl]
          have hkb : kb = body := b3 rfl
          subst hkb
          have b1a : out1 = out ++ kb := b1
          obtain ⟨k, h1, h2, h3, h4⟩ := ih out1
          rw [e]
          refine ⟨kb ++ k, ?_, ?_, ?_, ?_⟩
          · rw [h1, b1a]; simp
          · exact (List.prefix_append_right_inj kb).2 h2
          · intro h; rw [h3 h]
          · rw [h4]
            have hno : ¬ ∃ l ∈ kb, tooLong l = true := fun hex => by
              have := b4.2 hex
              cases this
            constructor
            · rintro (h | ⟨x, hx, hxn, hxl⟩)
              · exact Or.inl h
              · exact Or.inr ⟨x, List.mem_cons_of_mem _ hx, hxn, hxl⟩
            · rintro (h | ⟨x, hx, hxn, hxl⟩)
              · exact Or.inl h
              · rcases List.mem_cons.1 hx with e1 | e1
                · subst e1; exact absurd hxl hno
                · exact Or.inr ⟨x, e1, hxn, hxl⟩

theorem scanLoop_tooLong {l : GoString} (out ls : List GoString) (h : tooLong l = true) :
    scanLoop out (l :: ls) = (out, true) := by
  simp [scanLoop, h]

theorem extrLoop_cons_fatal {name v : GoString} {body out out1 : List GoString}
    (readErr : Bool) (rest : Archive) (h1 : Continents.lookup name = some v)
    (h2 : scanLoop out body = (out1, true)) :
    extrLoop readErr out ((name, body) :: rest) = ⟨out1, true⟩ := by
  simp only [extrLoop, h1, h2]

theorem tooLong_longLine : tooLong longLine = true := by
  have e : utf8Len longLine = 70000 := utf8Len_replicate 70000
  unfold tooLong
  rw [e]
  decide

/-- On entries whose region lines all fit the buffer of the scanner, the loop
over the entries sends the lines of the region entries and stops the program
only on a read error. -/
theorem extrLoop_eq (readErr : Bool) (r : Archive) :
    (∀ e ∈ r, e.1 ∈ regionNames → ∀ l ∈ e.2, utf8Len l < MaxScanTokenSize) →
    ∀ out : List GoString, extrLoop readErr out r = ⟨out ++ regionLines r, readErr⟩ := by
  induction r with
  | nil => intro _ out; simp [extrLoop, regionLines]
  | cons e rest ih =>
    intro h out
    obtain ⟨name, body⟩ := e
    have hrest : ∀ e ∈ rest, e.1 ∈ regionNames → ∀ l ∈ e.2, utf8Len l < MaxScanTokenSize :=
      fun x hx => h x (List.mem_cons_of_mem _ hx)
    have hl := lookup_Continents name
    cases hc : Continents.lookup name with
    | none =>
      rw [hc] at hl
      have hn : name ∉ regionNames := by simpa using hl.symm
      simp only [extrLoop, hc, regionLines_cons_of_not_mem body rest hn]
      exact ih hrest out
    | some v =>
      rw [hc] at hl
      have hn : name ∈ regionNames := by simpa using hl.symm
      have hb : scanLoop out body = (out ++ body, false) :=
        scanLoop_eq body (h (name, body) (by simp) hn) out
      simp only [extrLoop, hc, hb, regionLines_cons_of_mem body rest hn]
      rw [ih hrest (out ++ body)]
      simp

/-! ## The claims -/

/-- Claim C1, evaluated at the failing input: fed the records "b", "a", "c",
`sort` returns "b", "c". The record "a" is lost, so the result is not the
input arranged in ascending order. -/
theorem sort_loses_smaller_record :
    sort ["b".toList, "a".toList, "c".toList] = ["b".toList, "c".toList] ∧
    sort ["b".toList, "a".toList, "c".toList] ≠ ["a".toList, "b".toList, "c".toList] := by
  decide

/-- Claim C2: on a header line with zone name `Z` followed by continuation lines
of which the last has first field `H:M`, `proc` sends exactly one record and does
not fault; the record is made of `Z` and of the offset text of the last
continuation line. -/
theorem proc_single_block (hdr lastc Z H M : GoString) (conts : List GoString)
    (hh : isHeaderLine hdr = true) (hZ : (Fields (TrimSpace hdr))[1]? = some Z)
    (hc : ∀ c ∈ conts, isContLine c = true) (hl : isContLine lastc = true)
    (hoff : (Fields (TrimSpace lastc))[0]? = some (H ++ ':' :: M))
    (hH : ':' ∉ H) (hM : ':' ∉ M) :
    proc (hdr :: (conts ++ [lastc])) = ⟨[Z ++ ' ' :: (H ++ ' ' :: M)], none⟩ := by
  have hz : zoneOf hdr = some Z := by simp only [zoneOf, hh, if_true, hZ]
  have h1 : procLine ⟨[], []⟩ hdr = ([], .ok ⟨Z, []⟩) := by
    rw [procLine_header _ hh, saveZone_of_nil_zone rfl, hz]
  obtain ⟨lo, h2⟩ := procLines_conts conts hc ⟨Z, []⟩
  obtain ⟨off, ho, _, h3⟩ := procLine_cont ⟨Z, lo⟩ hl
  have hoe : off = H ++ ':' :: M := by
    simp only [offsetOf, hl, if_true, hoff] at ho
    injection ho with ho
    exact ho.symm
  subst hoe
  have h4 : procLines ⟨[], []⟩ (hdr :: (conts ++ [lastc])) = ([], .ok ⟨Z, H ++ ':' :: M⟩) := by
    rw [procLines_cons, h1]
    simp only [procLines_append, h2, procLines_cons, h3, procLines, List.append_nil]
  have hZne : Z ≠ [] := (zoneOf_spec hz).2.1
  have h5 : saveZone ⟨Z, H ++ ':' :: M⟩ = .ok [Sprintf Z (Sprintf H M)] := by
    simp [saveZone, hZne, formatOffset, Split_colon ':' H M hH hM]
  simp only [proc, h4, h5]
  simp [Sprintf]

/-- Witness of `proc_single_block`: the header line of `Foo/Bar` and one
continuation line with offset `1:30`. -/
theorem proc_single_block_witness :
    proc ("Zone Foo/Bar\t0:00\t-\tFOO".toList :: ([] ++ ["\t1:30\t-\tFOOST".toList])) =
      ⟨["Foo/Bar".toList ++ ' ' :: ("1".toList ++ ' ' :: "30".toList)], none⟩ :=
  proc_single_block "Zone Foo/Bar\t0:00\t-\tFOO".toList "\t1:30\t-\tFOOST".toList
    "Foo/Bar".toList "1".toList "30".toList [] (by decide) (by decide) (by simp) (by decide)
    (by decide) (by decide) (by decide)

/-- Claim C3, refuted as stated: for the two lines of the block `Foo/Bar` the
record sent is "Foo/Bar 1 30", with a space after the zone name; it is not
"Foo/Bar\t1 30" and it holds no TAB at all. -/
theorem record_has_no_tab :
    proc ["Zone Foo/Bar\t0:00\t-\tFOO".toList, "\t1:30\t-\tFOOST".toList] =
      ⟨["Foo/Bar 1 30".toList], none⟩ ∧
    (proc ["Zone Foo/Bar\t0:00\t-\tFOO".toList, "\t1:30\t-\tFOOST".toList]).out ≠
      ["Foo/Bar\t1 30".toList] ∧
    ∀ r ∈ (proc ["Zone Foo/Bar\t0:00\t-\tFOO".toList, "\t1:30\t-\tFOOST".toList]).out,
      '\t' ∉ r := by
  decide

/-- Claim C3, amended: every record sent by `proc` is
`zoneName ++ " " ++ hours ++ " " ++ minutes`, with one SPACE after the zone name,
where `zoneName` is the second field of a header line of the input and `hours`,
`minutes` are the first two `:`-delimited fields of the first field of a
continuation line of the input; for the two lines of the block `Foo/Bar` the
record is "Foo/Bar 1 30". -/
theorem record_form :
    (∀ (lines : List GoString) (r : GoString), r ∈ (proc lines).out →
      ∃ z off hh m rest, z ∈ headerZones lines ∧ off ∈ contOffsets lines ∧
        Split off ':' = hh :: m :: rest ∧ r = z ++ ' ' :: (hh ++ ' ' :: m)) ∧
    proc ["Zone Foo/Bar\t0:00\t-\tFOO".toList, "\t1:30\t-\tFOOST".toList] =
      ⟨["Foo/Bar 1 30".toList], none⟩ := by
  refine ⟨?_, by decide⟩
  intro lines r hr
  obtain ⟨pre, post, z, off, hh, m, rest, hl, _, hz, ho, hsp, he⟩ := proc_out_char lines r hr
  refine ⟨z, off, hh, m, rest, ?_, ?_, hsp, by simpa [Sprintf] using he⟩
  · rw [hl, headerZones, List.filterMap_append]
    exact List.mem_append_left _ (List.mem_of_getLast?_eq_some hz)
  · rw [hl, contOffsets, List.filterMap_append]
    exact List.mem_append_left _ (List.mem_of_getLast?_eq_some ho)

/-- Witness of `record_form`: the record of the block `Foo/Bar`. -/
theorem record_form_witness :
    "Foo/Bar 1 30".toList ∈
      (proc ["Zone Foo/Bar\t0:00\t-\tFOO".toList, "\t1:30\t-\tFOOST".toList]).out ∧
    ∃ z off hh m rest,
      z ∈ headerZones ["Zone Foo/Bar\t0:00\t-\tFOO".toList, "\t1:30\t-\tFOOST".toList] ∧
      off ∈ contOffsets ["Zone Foo/Bar\t0:00\t-\tFOO".toList, "\t1:30\t-\tFOOST".toList] ∧
      Split off ':' = hh :: m :: rest ∧ "Foo/Bar 1 30".toList = z ++ ' ' :: (hh ++ ' ' :: m) :=
  ⟨by decide, record_form.1 _ _ (by decide)⟩

/-- Claim C4, refuted as stated: the block of `Lone/Zone` has no continuation
line before the next header line, yet `proc` sends a record for it, with the
offset `1:00` of the continuation line of the block before it. -/
theorem dangling_zone_emitted :
    ["Zone Foo/A\t0:00".toList, "\t1:00\t-\tFST".toList, "Zone Lone/Zone".toList,
      "Zone Foo/C\t0:00".toList, "\t2:00\t-\tCST".toList].map offsetOf =
      [none, some "1:00".toList, none, none, some "2:00".toList] ∧
    headerZones ["Zone Foo/A\t0:00".toList, "\t1:00\t-\tFST".toList, "Zone Lone/Zone".toList,
      "Zone Foo/C\t0:00".toList, "\t2:00\t-\tCST".toList] =
      ["Foo/A".toList, "Lone/Zone".toList, "Foo/C".toList] ∧
    proc ["Zone Foo/A\t0:00".toList, "\t1:00\t-\tFST".toList, "Zone Lone/Zone".toList,
      "Zone Foo/C\t0:00".toList, "\t2:00\t-\tCST".toList] =
      ⟨["Foo/A 1 00".toList, "Lone/Zone 1 00".toList, "Foo/C 2 00".toList], none⟩ := by
  decide

/-- Claim C4, amended: `proc` sends nothing for `["Zone Lone/Zone"]`; on a line
sequence without any continuation line it sends nothing, neither in the loop nor
at the end of input, so a block without continuation line is dropped when no
continuation line comes before it; and every record sent is sent at a closing
point, a header line or the end of input, from the zone of the last header line
and the offset of the last continuation line before that point. -/
theorem dangling_zone_dropped_without_offset :
    proc ["Zone Lone/Zone".toList] = ⟨[], none⟩ ∧
    (∀ lines : List GoString, (∀ s ∈ lines, isContLine s = false) →
      (procLines ⟨[], []⟩ lines).1 = [] ∧ (proc lines).out = []) ∧
    (∀ (lines : List GoString) (r : GoString), r ∈ (proc lines).out →
      ∃ pre post z off hh m rest, lines = pre ++ post ∧
        (post = [] ∨ ∃ s t, post = s :: t ∧ isHeaderLine s = true) ∧
        (headerZones pre).getLast? = some z ∧ (contOffsets pre).getLast? = some off ∧
        Split off ':' = hh :: m :: rest ∧ r = z ++ ' ' :: (hh ++ ' ' :: m)) := by
  refine ⟨by decide, ?_, ?_⟩
  · intro lines hn
    obtain ⟨h1, h2⟩ := procLines_no_cont lines hn ⟨[], []⟩ rfl
    refine ⟨h1, ?_⟩
    unfold proc
    cases hpl : procLines ⟨[], []⟩ lines with
    | mk sent res =>
      rw [hpl] at h1 h2
      simp only at h1 h2
      subst h1
      cases res with
      | error e => rfl
      | ok st => simp only [saveZone_of_nil_offset (h2 st rfl), List.append_nil]
  · intro lines r hr
    obtain ⟨pre, post, z, off, hh, m, rest, hl, hp, hz, ho, hsp, he⟩ :=
      proc_out_char lines r hr
    exact ⟨pre, post, z, off, hh, m, rest, hl, hp, hz, ho, hsp, by simpa [Sprintf] using he⟩

/-- Witness of `dangling_zone_dropped_without_offset`: two header lines and a
comment, no continuation line. -/
theorem dangling_zone_dropped_witness :
    (∀ s ∈ ["Zone Lone/Zone".toList, "# note".toList, "Zone Foo/C\t0:00".toList],
      isContLine s = false) ∧
    (proc ["Zone Lone/Zone".toList, "# note".toList, "Zone Foo/C\t0:00".toList]).out = [] :=
  ⟨by decide, (dangling_zone_dropped_without_offset.2.1 _ (by decide)).2⟩

/-- Claim C5, evaluated at the failing input: the entry `africa` holds the block
of `Africa/Tunis` and the entry `europe` the block of `Africa/Ceuta`, each a
header line and one continuation line with offset `1:00`; `proc` sends the two
records, `sort` keeps the first only, and one line is written. -/
theorem pipeline_writes_one_line :
    (proc (extr (.tar [("africa".toList,
        ["Zone\tAfrica/Tunis\t0:40:44 -\tLMT\t1881 May 12".toList,
         "\t\t\t1:00\tTunisia\tCE%sT".toList]),
      ("europe".toList,
        ["Zone\tAfrica/Ceuta\t-0:21:16 -\tLMT\t1901 Jan  1  0:00u".toList,
         "\t\t\t1:00\tEU\tCE%sT".toList])] false)).out) =
      ⟨["Africa/Tunis 1 00".toList, "Africa/Ceuta 1 00".toList], none⟩ ∧
    GetLookupTable (.tar [("africa".toList,
        ["Zone\tAfrica/Tunis\t0:40:44 -\tLMT\t1881 May 12".toList,
         "\t\t\t1:00\tTunisia\tCE%sT".toList]),
      ("europe".toList,
        ["Zone\tAfrica/Ceuta\t-0:21:16 -\tLMT\t1901 Jan  1  0:00u".toList,
         "\t\t\t1:00\tEU\tCE%sT".toList])] false) bufWriter [] =
      .ok ("Africa/Tunis 1 00\n".toList, none) := by
  decide

/-- Claim C6, evaluated at the failing inputs: the inner loop of `sort`, run on
the sorted slice "c", "f" with the line "d", appends "d" at the end instead of
placing it between "c" and "f"; run on "c", "d", "f" with the line "b", it
drops "b". -/
theorem insert_step_appends_or_drops :
    insertLoop ["c".toList, "f".toList] "d".toList ["c".toList, "f".toList] =
      ["c".toList, "f".toList, "d".toList] ∧
    sortStep ["c".toList, "f".toList] "d".toList = ["c".toList, "f".toList, "d".toList] ∧
    insertLoop ["c".toList, "d".toList, "f".toList] "b".toList
        ["c".toList, "d".toList, "f".toList] =
      ["c".toList, "d".toList, "f".toList] ∧
    sortStep ["c".toList, "d".toList, "f".toList] "b".toList =
      ["c".toList, "d".toList, "f".toList] := by
  decide

/-- Claim C7: for `h` and `m` without `:`, `formatOffset` of `h ++ ":" ++ m`
returns `h ++ " " ++ m`, the two texts copied as they are. -/
theorem formatOffset_colon (h m : GoString) (hh : ':' ∉ h) (hm : ':' ∉ m) :
    formatOffset (h ++ ':' :: m) = .ok (h ++ ' ' :: m) := by
  simp [formatOffset, Split_colon ':' h m hh hm, Sprintf]

/-- Witness of `formatOffset_colon`: the offsets `-5:45` and `10:00`. -/
theorem formatOffset_colon_witness :
    formatOffset "-5:45".toList = .ok "-5 45".toList ∧
    formatOffset "10:00".toList = .ok "10 00".toList :=
  ⟨formatOffset_colon "-5".toList "45".toList (by decide) (by decide),
   formatOffset_colon "10".toList "00".toList (by decide) (by decide)⟩

/-- Claim C8: a line whose trimmed text is empty or begins with `#` or with
`Rule` leaves the state of `proc` as it is and sends nothing, and inserting it
at any position of a line sequence, or deleting it there, leaves the result of
`proc` unchanged, records and fault alike. -/
theorem skip_line_neutral (l : GoString) (h : isSkipLine l = true) :
    (∀ st : ProcState, procLine st l = ([], .ok st)) ∧
    ∀ pre post : List GoString, proc (pre ++ l :: post) = proc (pre ++ post) := by
  refine ⟨fun st => procLine_skip st h, ?_⟩
  intro pre post
  unfold proc
  rw [procLines_skip_insert h pre post]

/-- Witness of `skip_line_neutral`: a `Rule` line between a header line and its
continuation line. -/
theorem skip_line_neutral_witness :
    isSkipLine "Rule US\t1918\t1919\t-\tMar\t31\t2:00\tw\t1:00\tD".toList = true ∧
    proc (["Zone Foo/Bar\t0:00\t-\tFOO".toList] ++
        "Rule US\t1918\t1919\t-\tMar\t31\t2:00\tw\t1:00\tD".toList ::
          ["\t1:30\t-\tFOOST".toList]) =
      proc (["Zone Foo/Bar\t0:00\t-\tFOO".toList] ++ ["\t1:30\t-\tFOOST".toList]) :=
  ⟨by decide, (skip_line_neutral _ (by decide)).2 _ _⟩

/-- Claim C9, refuted as stated: the entry `asia` holds one line of 70000
bytes, more than the buffer of the scanner takes; `extr` sends nothing and stops
the program, while the lines of the region entries are this one line. -/
theorem extr_stops_on_long_line :
    extr (.tar [("asia".toList, [longLine])] false) = ⟨[], true⟩ ∧
    regionLines [("asia".toList, [longLine])] = [longLine] := by
  have h1 : Continents.lookup "asia".toList = some "asia".toList := by decide
  have h2 : scanLoop [] [longLine] = ([], true) := scanLoop_tooLong [] [] tooLong_longLine
  have h3 := @extrLoop_cons_fatal "asia".toList "asia".toList [longLine] [] [] false [] h1 h2
  have h4 : "asia".toList ∈ regionNames := by decide
  refine ⟨h3, ?_⟩
  rw [regionLines_cons_of_mem _ _ h4]
  rfl

/-- Claim C9, amended: for an archive that is read without error and in which
every line of an entry named by one of the seven region names is shorter than
the buffer of the scanner (64 KiB), `extr` yields exactly the lines of these
entries, concatenated in archive order and within-entry line order, and nothing
of any other entry; for the entries `africa`, `notes.txt`, `europe` it yields the
lines of `africa` followed by those of `europe`. In every case the lines yielded
are a prefix of that concatenation, and `extr` stops the program exactly on a
read error or on a longer line of a region entry, and on a stream that is not
gzip. -/
theorem extr_allow_list :
    (∀ (r : Archive) (readErr : Bool),
      (∀ e ∈ r, e.1 ∈ regionNames → ∀ l ∈ e.2, utf8Len l < MaxScanTokenSize) →
      extr (.tar r readErr) = ⟨regionLines r, readErr⟩) ∧
    (∀ a n e : List GoString, (∀ l ∈ a, utf8Len l < MaxScanTokenSize) →
      (∀ l ∈ e, utf8Len l < MaxScanTokenSize) →
      extr (.tar [("africa".toList, a), ("notes.txt".toList, n), ("europe".toList, e)] false) =
        ⟨a ++ e, false⟩) ∧
    (∀ (r : Archive) (readErr : Bool),
      (extr (.tar r readErr)).out <+: regionLines r ∧
      ((extr (.tar r readErr)).fatal = true ↔
        (readErr = true ∨
          ∃ e ∈ r, e.1 ∈ regionNames ∧ ∃ l ∈ e.2, MaxScanTokenSize ≤ utf8Len l))) ∧
    extr .notGzip = ⟨[], true⟩ := by
  refine ⟨?_, ?_, ?_, rfl⟩
  · intro r readErr h
    simp only [extr, extrLoop_eq readErr r h [], List.nil_append]
  · intro a n e ha he
    have h1 : "africa".toList ∈ regionNames := by decide
    have h2 : "notes.txt".toList ∉ regionNames := by decide
    have h3 : "europe".toList ∈ regionNames := by decide
    have hr : regionLines
        [("africa".toList, a), ("notes.txt".toList, n), ("europe".toList, e)] = a ++ e := by
      rw [regionLines_cons_of_mem _ _ h1, regionLines_cons_of_not_mem _ _ h2,
        regionLines_cons_of_mem _ _ h3]
      simp [regionLines]
    have hs : ∀ x ∈ [("africa".toList, a), ("notes.txt".toList, n), ("europe".toList, e)],
        x.1 ∈ regionNames → ∀ l ∈ x.2, utf8Len l < MaxScanTokenSize := by
      intro x hx hxn
      simp only [List.mem_cons, List.mem_nil_iff, or_false] at hx
      rcases hx with hx | hx | hx
      · subst hx; exact ha
      · subst hx; exact absurd hxn h2
      · subst hx; exact he
    simp only [extr, extrLoop_eq false _ hs [], List.nil_append, hr]
  · intro r readErr
    obtain ⟨k, h1, h2, _, h4⟩ := extrLoop_spec readErr r []
    refine ⟨?_, ?_⟩
    · simp only [extr, h1, List.nil_append]
      exact h2
    · simp only [extr]
      rw [h4]
      simp only [tooLong, decide_eq_true_eq]

/-- Witness of `extr_allow_list`: the entries `africa`, `notes.txt`, `europe`,
read without error. -/
theorem extr_allow_list_witness :
    extr (.tar [("africa".toList, ["Zone Foo/A\t0:00".toList, "\t1:00\t-\tFST".toList]),
      ("notes.txt".toList, ["a note".toList]),
      ("europe".toList, ["Zone Foo/C\t0:00".toList])] false) =
      ⟨["Zone Foo/A\t0:00".toList, "\t1:00\t-\tFST".toList] ++ ["Zone Foo/C\t0:00".toList],
        false⟩ :=
  extr_allow_list.2.1 _ _ _ (by decide) (by decide)

/-- Claim C10: when `proc` does not fault, the zone names of the records it
sends, in sending order, are a subsequence of the zone names of the header
lines in input order; it sends no more records than there are header lines, and
the loop sends nothing before the first header line. -/
theorem proc_zones_sublist (lines : List GoString) (h : (proc lines).fault = none) :
    List.Sublist ((proc lines).out.map recordZone) (headerZones lines) ∧
    (proc lines).out.length ≤ (lines.filter isHeaderLine).length ∧
    ∀ pre post : List GoString, lines = pre ++ post →
      (∀ s ∈ pre, isHeaderLine s = false) → (procLines ⟨[], []⟩ pre).1 = [] := by
  have hsub : List.Sublist ((proc lines).out.map recordZone) (headerZones lines) := by
    unfold proc at h ⊢
    cases hpl : procLines ⟨[], []⟩ lines with
    | mk sent res =>
      rw [hpl] at h
      cases res with
      | error e => cases h
      | ok st =>
        cases hs : saveZone st with
        | error e => simp only [hs] at h; cases h
        | ok last =>
          obtain ⟨h1, h2⟩ := procLines_zones lines ⟨[], []⟩ st (by simp) (by rw [hpl])
          rw [hpl] at h2
          simp only [if_true, List.nil_append] at h2
          simp only [hs, List.map_append]
          exact List.Sublist.trans
            (List.Sublist.append (List.Sublist.refl _) (saveZone_zones hs h1)) h2
  refine ⟨hsub, ?_, ?_⟩
  · have := hsub.length_le
    rw [List.length_map] at this
    exact le_trans this (headerZones_length_le lines)
  · intro pre post _ hn
    exact procLines_no_header pre hn ⟨[], []⟩

/-- Witness of `proc_zones_sublist`: a continuation line before the first
header line, then two blocks. -/
theorem proc_zones_sublist_witness :
    (proc ["\t9:00".toList, "Zone Foo/A\t0:00".toList, "\t1:00\t-\tFST".toList,
      "Zone Foo/C\t0:00".toList, "\t2:00\t-\tCST".toList]).fault = none ∧
    List.Sublist
      ((proc ["\t9:00".toList, "Zone Foo/A\t0:00".toList, "\t1:00\t-\tFST".toList,
        "Zone Foo/C\t0:00".toList, "\t2:00\t-\tCST".toList]).out.map recordZone)
      (headerZones ["\t9:00".toList, "Zone Foo/A\t0:00".toList, "\t1:00\t-\tFST".toList,
        "Zone Foo/C\t0:00".toList, "\t2:00\t-\tCST".toList]) :=
  ⟨by decide, (proc_zones_sublist _ (by decide)).1⟩

/-! ## Further lemmas on `Split` and `formatOffset` -/

theorem splitAux_length (sep : Char) (s : GoString) : ∀ cur : GoString,
    (splitAux sep s cur).length = s.count sep + 1 := by
  induction s with
  | nil => intro cur; simp [splitAux]
  | cons c cs ih =>
    intro cur
    by_cases hc : c = sep
    · subst hc
      simp [splitAux, ih]
    · have hb : (c == sep) = false := by simpa using hc
      simp [splitAux, hc, ih, List.count_cons, hb]

theorem splitAux_chars (sep : Char) (s : GoString) : ∀ cur : GoString,
    ∀ f ∈ splitAux sep s cur, ∀ c ∈ f, c ∈ s ∨ c ∈ cur := by
  induction s with
  | nil =>
    intro cur f hf c hc
    simp only [splitAux, List.mem_singleton] at hf
    subst hf
    exact Or.inr (by simpa using hc)
  | cons a t ih =>
    intro cur f hf c hc
    by_cases ha : a = sep
    · simp only [splitAux, ha, if_true, List.mem_cons] at hf
      rcases hf with hf | hf
      · subst hf
        exact Or.inr (by simpa using hc)
      · rcases ih [] f hf c hc with h | h
        · exact Or.inl (List.mem_cons_of_mem _ h)
        · simp at h
    · simp only [splitAux, ha, if_false] at hf
      rcases ih (a :: cur) f hf c hc with h | h
      · exact Or.inl (List.mem_cons_of_mem _ h)
      · rcases List.mem_cons.1 h with h | h
        · exact Or.inl (by simp [h])
        · exact Or.inr h

theorem Split_chars {sep : Char} {s f : GoString} (hf : f ∈ Split s sep) :
    ∀ c ∈ f, c ∈ s := by
  intro c hc
  rcases splitAux_chars sep s [] f hf c hc with h | h
  · exact h
  · simp at h

theorem Split_of_mem {sep : Char} {s : GoString} (h : sep ∈ s) :
    ∃ a b rest, Split s sep = a :: b :: rest := by
  have hl : (Split s sep).length = s.count sep + 1 := splitAux_length sep s []
  have hp : 0 < s.count sep := List.count_pos_iff.2 h
  cases hs : Split s sep with
  | nil => rw [hs] at hl; simp at hl
  | cons a t =>
    cases t with
    | nil => rw [hs] at hl; simp at hl; omega
    | cons b u => exact ⟨a, b, u, rfl⟩

theorem formatOffset_ok_iff (offset : GoString) :
    (∃ r, formatOffset offset = .ok r) ↔ 2 ≤ (Split offset ':').length := by
  unfold formatOffset
  cases hs : Split offset ':' with
  | nil => simp
  | cons a t =>
    cases t with
    | nil => simp
    | cons b u => simp

theorem formatOffset_error_iff (offset : GoString) :
    formatOffset offset = .error (.indexOutOfRange 1 1) ↔ (Split offset ':').length < 2 := by
  have hl : (Split offset ':').length = offset.count ':' + 1 := splitAux_length ':' offset []
  unfold formatOffset
  cases hs : Split offset ':' with
  | nil => rw [hs] at hl; simp at hl
  | cons a t =>
    cases t with
    | nil => simp
    | cons b u => simp

/-! ## The claims on `formatOffset` -/

/-- Claim C11, evaluated at the failing input: `formatOffset` of "05:30"
returns "05 30"; the leading zero of the hour is kept, so the result is not
"5 30". -/
theorem formatOffset_keeps_leading_zero :
    formatOffset "05:30".toList = .ok "05 30".toList ∧
    formatOffset "05:30".toList ≠ .ok "5 30".toList := by
  decide

/-- Claim C12, refuted as stated: the input "0:12:12" has three
`:`-delimited fields and `formatOffset` returns "0 12" on it without fault. -/
theorem formatOffset_three_fields_ok :
    (Split "0:12:12".toList ':').length = 3 ∧
    formatOffset "0:12:12".toList = .ok "0 12".toList := by
  decide

/-- Claim C12, amended: `formatOffset` faults, with index 1 out of range for
length 1, exactly on the inputs with fewer than two `:`-delimited fields, which
are the inputs without `:`, and returns normally exactly on the inputs with at
least two fields; the input "0" faults and the input "0:12:12" returns "0 12". -/
theorem formatOffset_fault_iff :
    (∀ offset : GoString,
      (Split offset ':').length = offset.count ':' + 1 ∧
      (formatOffset offset = .error (.indexOutOfRange 1 1) ↔ (Split offset ':').length < 2) ∧
      ((∃ r, formatOffset offset = .ok r) ↔ 2 ≤ (Split offset ':').length)) ∧
    formatOffset "0".toList = .error (.indexOutOfRange 1 1) ∧
    formatOffset "0:12:12".toList = .ok "0 12".toList := by
  refine ⟨fun offset => ⟨splitAux_length ':' offset [], formatOffset_error_iff offset,
    formatOffset_ok_iff offset⟩, by decide, by decide⟩

/-! ## Lemmas on `sort` -/

theorem insertLoop_eq (sorted : List GoString) (s : GoString) : ∀ vs : List GoString,
    insertLoop sorted s vs = if ∃ v ∈ vs, v < s then sorted ++ [s] else sorted := by
  intro vs
  induction vs with
  | nil => simp [insertLoop]
  | cons v t ih =>
    by_cases h : v < s
    · simp [insertLoop, h]
    · simp [insertLoop, h, ih]

theorem sortStep_eq (sorted : List GoString) (s : GoString) (h : sorted ≠ []) :
    sortStep sorted s = if ∃ v ∈ sorted, v < s then sorted ++ [s] else sorted := by
  unfold sortStep
  have hl : sorted.length ≠ 0 := by simpa using h
  simp only [hl, if_false]
  exact insertLoop_eq sorted s sorted

theorem foldl_sortStep (x : GoString) (l : List GoString) : ∀ ks : List GoString,
    (∀ k ∈ ks, x < k) →
    List.foldl sortStep (x :: ks) l = x :: (ks ++ l.filter (fun s => decide (x < s))) := by
  induction l with
  | nil => intro ks _; simp
  | cons s t ih =>
    intro ks hk
    have hiff : (∃ v ∈ x :: ks, v < s) ↔ x < s := by
      constructor
      · rintro ⟨v, hv, hvs⟩
        rcases List.mem_cons.1 hv with e | e
        · subst e; exact hvs
        · exact lt_trans (hk v e) hvs
      · intro h
        exact ⟨x, by simp, h⟩
    have hstep : sortStep (x :: ks) s = if x < s then x :: (ks ++ [s]) else x :: ks := by
      rw [sortStep_eq _ _ (by simp)]
      by_cases h : x < s
      · rw [if_pos (hiff.2 h), if_pos h]; rfl
      · rw [if_neg (fun hc => h (hiff.1 hc)), if_neg h]
    rw [List.foldl_cons, hstep]
    by_cases h : x < s
    · rw [if_pos h, ih (ks ++ [s])]
      · simp [List.filter_cons, h]
      · intro k hkm
        rcases List.mem_append.1 hkm with e | e
        · exact hk k e
        · simp only [List.mem_singleton] at e
          subst e; exact h
    · rw [if_neg h, ih ks hk]
      simp [List.filter_cons, h]

theorem sort_cons (x : GoString) (xs : List GoString) :
    sort (x :: xs) = x :: xs.filter (fun s => decide (x < s)) := by
  have h0 : sortStep [] x = [x] := rfl
  unfold sort
  rw [List.foldl_cons, h0, foldl_sortStep x xs [] (by simp)]
  simp

theorem sort_sublist (l : List GoString) : List.Sublist (sort l) l := by
  cases l with
  | nil => exact List.Sublist.refl _
  | cons x xs =>
    rw [sort_cons]
    exact List.Sublist.cons₂ x (List.filter_sublist xs)

/-! ## Further lemmas on `proc` -/

theorem offsetOf_spec {s off : GoString} (h : offsetOf s = some off) :
    isContLine s = true ∧ off ≠ [] ∧ ∀ c ∈ off, isSpace c = false := by
  unfold offsetOf at h
  by_cases hh : isContLine s = true
  · simp only [hh, if_true] at h
    exact ⟨hh, Fields_mem (List.getElem?_mem h)⟩
  · simp [hh] at h

theorem proc_ok {lines : List GoString} (h : (proc lines).fault = none) :
    ∃ sent st last, procLines ⟨[], []⟩ lines = (sent, .ok st) ∧ saveZone st = .ok last ∧
      (proc lines).out = sent ++ last := by
  unfold proc at h ⊢
  cases hpl : procLines ⟨[], []⟩ lines with
  | mk sent res =>
    rw [hpl] at h
    cases res with
    | error e => cases h
    | ok st =>
      cases hs : saveZone st with
      | error e => simp only [hs] at h; cases h
      | ok last => exact ⟨sent, st, last, rfl, hs, by simp only [hs]⟩

/-- Without fault, the zone names of the records sent are a subsequence of the
zone names of the header lines. -/
theorem proc_out_zones {lines : List GoString} (h : (proc lines).fault = none) :
    List.Sublist ((proc lines).out.map recordZone) (headerZones lines) := by
  obtain ⟨sent, st, last, hpl, hs, hout⟩ := proc_ok h
  obtain ⟨h1, h2⟩ := procLines_zones lines ⟨[], []⟩ st (by simp) (by rw [hpl])
  rw [hpl] at h2
  simp only [if_true, List.nil_append] at h2
  rw [hout, List.map_append]
  exact List.Sublist.trans
    (List.Sublist.append (List.Sublist.refl _) (saveZone_zones hs h1)) h2

theorem procLines_short_header (lines : List GoString) :
    (∃ s ∈ lines, isHeaderLine s = true ∧ zoneOf s = none) →
    ∀ st : ProcState, ∃ e, (procLines st lines).2 = .error e := by
  induction lines with
  | nil => rintro ⟨s, hs, _⟩; simp at hs
  | cons s0 rest ih =>
    rintro ⟨s, hs, hk, hz⟩ st
    rw [procLines_cons]
    cases hp : procLine st s0 with
    | mk sent res =>
      cases res with
      | error e => exact ⟨e, rfl⟩
      | ok st1 =>
        rcases List.mem_cons.1 hs with e | e
        · subst e
          rw [procLine_header st hk, hz] at hp
          cases hsv : saveZone st with
          | error e1 => rw [hsv] at hp; cases hp
          | ok sent1 => rw [hsv] at hp; cases hp
        · exact ih ⟨s, e, hk, hz⟩ st1

/-- No record sent by `proc` holds a TAB, and its zone name is the zone name of
a header line. -/
theorem proc_record_chars (lines : List GoString) (r : GoString)
    (hr : r ∈ (proc lines).out) :
    '\t' ∉ r ∧ '\t' ∉ recordZone r ∧ recordZone r ∈ headerZones lines := by
  obtain ⟨pre, post, z, off, hh, m, rest, hl, _, hz, ho, hsp, he⟩ := proc_out_char lines r hr
  have hzm : z ∈ headerZones pre := List.mem_of_getLast?_eq_some hz
  have hom : off ∈ contOffsets pre := List.mem_of_getLast?_eq_some ho
  obtain ⟨sz, _, hsz⟩ := List.mem_filterMap.1 hzm
  obtain ⟨so, _, hso⟩ := List.mem_filterMap.1 hom
  have hzs := (zoneOf_spec hsz).2.2
  have hos := (offsetOf_spec hso).2.2
  have htab : isSpace '\t' = true := by decide
  have hz1 : '\t' ∉ z := fun hin => by rw [hzs _ hin] at htab; cases htab
  have ho1 : '\t' ∉ off := fun hin => by rw [hos _ hin] at htab; cases htab
  have hh1 : '\t' ∉ hh := fun hin =>
    ho1 (@Split_chars ':' off hh (by rw [hsp]; simp) _ hin)
  have hm1 : '\t' ∉ m := fun hin =>
    ho1 (@Split_chars ':' off m (by rw [hsp]; simp) _ hin)
  have hrz : recordZone r = z := by
    rw [he]
    exact recordZone_Sprintf z _ (zoneOf_no_space hsz)
  refine ⟨?_, by rw [hrz]; exact hz1, ?_⟩
  · rw [he]
    simp only [Sprintf, List.mem_append, List.mem_cons]
    rintro (h | h | h | h | h)
    · exact hz1 h
    · cases h
    · exact hh1 h
    · cases h
    · exact hm1 h
  · rw [hrz, hl, headerZones, List.filterMap_append]
    exact List.mem_append_left _ hzm

/-! ## The claims on malformed headers, zone names and the table -/

/-- Claim C13: a line sequence that holds a header line with fewer than two
white-space-delimited fields makes `proc` fault with an index out of range; the
line is not skipped. -/
theorem proc_faults_on_short_header (lines : List GoString)
    (h : ∃ s ∈ lines, isHeaderLine s = true ∧ (Fields (TrimSpace s)).length < 2) :
    ∃ i n, (proc lines).fault = some (.indexOutOfRange i n) := by
  have h1 : ∃ s ∈ lines, isHeaderLine s = true ∧ zoneOf s = none := by
    obtain ⟨s, hs, hk, hl⟩ := h
    refine ⟨s, hs, hk, ?_⟩
    simp only [zoneOf, hk, if_true]
    exact List.getElem?_eq_none (by omega)
  obtain ⟨e, he⟩ := procLines_short_header lines h1 ⟨[], []⟩
  cases e with
  | indexOutOfRange i n =>
    refine ⟨i, n, ?_⟩
    unfold proc
    cases hpl : procLines ⟨[], []⟩ lines with
    | mk sent res =>
      rw [hpl] at he
      simp only at he
      subst he
      rfl

/-- Witness of `proc_faults_on_short_header`: a block followed by the header
line `Zone` that has one field. -/
theorem proc_faults_on_short_header_witness :
    (∃ s ∈ ["Zone Foo/A\t0:00".toList, "\t1:00\t-\tFST".toList, "Zone".toList],
      isHeaderLine s = true ∧ (Fields (TrimSpace s)).length < 2) ∧
    ∃ i n, (proc ["Zone Foo/A\t0:00".toList, "\t1:00\t-\tFST".toList, "Zone".toList]).fault =
      some (.indexOutOfRange i n) :=
  ⟨by decide, proc_faults_on_short_header _ (by decide)⟩

/-- Claim C14, refuted as stated: there is no input line sequence for which
`proc` sends a record whose zone name holds a TAB. -/
theorem no_zone_name_with_tab :
    ¬ ∃ (lines : List GoString) (r : GoString),
      r ∈ (proc lines).out ∧ '\t' ∈ recordZone r := by
  rintro ⟨lines, r, hr, ht⟩
  exact (proc_record_chars lines r hr).2.1 ht

/-- Claim C14, amended: the zone name stored for a header line is its second
white-space-delimited field, unchanged, the replacement of a space by a tab
having nothing to replace in a field; and no record sent by `proc` holds a TAB,
in its zone name or elsewhere, the zone name of a record being that of a header
line. -/
theorem zone_name_is_second_field :
    (∀ (st st1 : ProcState) (s : GoString), isHeaderLine s = true →
      (procLine st s).2 = .ok st1 → (Fields (TrimSpace s))[1]? = some st1.currentZone) ∧
    (∀ z : GoString, (∀ c ∈ z, isSpace c = false) → Replace z ' ' "\t".toList 1 = z) ∧
    (∀ (lines : List GoString) (r : GoString), r ∈ (proc lines).out →
      '\t' ∉ r ∧ '\t' ∉ recordZone r ∧ recordZone r ∈ headerZones lines) := by
  refine ⟨?_, ?_, proc_record_chars⟩
  · intro st st1 s hk h
    rw [procLine_header st hk] at h
    cases hs : saveZone st with
    | error e => rw [hs] at h; cases h
    | ok sent =>
      cases hz : zoneOf s with
      | none => rw [hs, hz] at h; cases h
      | some z =>
        rw [hs, hz] at h
        simp only at h
        injection h with h
        subst h
        simpa only [zoneOf, hk, if_true] using hz
  · intro z hz
    refine Replace_eq_self ' ' _ z 1 (fun hin => ?_)
    have := hz _ hin
    simp [isSpace] at this

/-- Witness of `zone_name_is_second_field`: the record of the block `Foo/Bar`. -/
theorem zone_name_is_second_field_witness :
    "Foo/Bar 1 30".toList ∈
      (proc ["Zone Foo/Bar\t0:00\t-\tFOO".toList, "\t1:30\t-\tFOOST".toList]).out ∧
    '\t' ∉ "Foo/Bar 1 30".toList :=
  ⟨by decide, (zone_name_is_second_field.2.2
    ["Zone Foo/Bar\t0:00\t-\tFOO".toList, "\t1:30\t-\tFOOST".toList] _ (by decide)).1⟩

/-- Claim C15, refuted as stated: the zone `Foo/A` has two header blocks, with
offsets `1:00` and `2:00`; `proc` followed by `sort` keeps the two records. -/
theorem table_keeps_both_records_of_a_zone :
    sort (proc ["Zone Foo/A\t0:00".toList, "\t1:00\t-\tFST".toList,
      "Zone Foo/A\t1:00".toList, "\t2:00\t-\tFDT".toList]).out =
      ["Foo/A 1 00".toList, "Foo/A 2 00".toList] := by
  decide

/-- Claim C15, amended: the table made by `proc` followed by `sort` is a
subsequence of the records sent by `proc`; when `proc` does not fault, the zone
names of the table are a subsequence of the zone names of the header lines, so
that the table holds, for every zone name, at most as many records as there are
header lines with that zone name. Records are not merged by zone name: for the
two blocks of the zone `Foo/A`, with offsets `1:00` and `2:00`, the table holds
the two records. -/
theorem table_sublist_of_records :
    (∀ lines : List GoString, List.Sublist (sort (proc lines).out) (proc lines).out) ∧
    (∀ lines : List GoString, (proc lines).fault = none →
      List.Sublist ((sort (proc lines).out).map recordZone) (headerZones lines)) ∧
    (∀ lines : List GoString, (proc lines).fault = none → ∀ z : GoString,
      ((sort (proc lines).out).map recordZone).count z ≤ (headerZones lines).count z) ∧
    sort (proc ["Zone Foo/A\t0:00".toList, "\t1:00\t-\tFST".toList,
      "Zone Foo/A\t1:00".toList, "\t2:00\t-\tFDT".toList]).out =
      ["Foo/A 1 00".toList, "Foo/A 2 00".toList] := by
  have hsub : ∀ lines : List GoString, (proc lines).fault = none →
      List.Sublist ((sort (proc lines).out).map recordZone) (headerZones lines) :=
    fun lines h =>
      List.Sublist.trans (List.Sublist.map recordZone (sort_sublist _)) (proc_out_zones h)
  exact ⟨fun lines => sort_sublist _, hsub, fun lines h z => (hsub lines h).count_le z,
    by decide⟩

/-- Witness of `table_sublist_of_records`: the two blocks of the zone `Foo/A`. -/
theorem table_sublist_of_records_witness :
    (proc ["Zone Foo/A\t0:00".toList, "\t1:00\t-\tFST".toList,
      "Zone Foo/A\t1:00".toList, "\t2:00\t-\tFDT".toList]).fault = none ∧
    List.Sublist
      ((sort (proc ["Zone Foo/A\t0:00".toList, "\t1:00\t-\tFST".toList,
        "Zone Foo/A\t1:00".toList, "\t2:00\t-\tFDT".toList]).out).map recordZone)
      (headerZones ["Zone Foo/A\t0:00".toList, "\t1:00\t-\tFST".toList,
        "Zone Foo/A\t1:00".toList, "\t2:00\t-\tFDT".toList]) :=
  ⟨by decide, table_sublist_of_records.2.1 _ (by decide)⟩

/-- Claim C16: `sort` of the empty sequence is empty; `sort` of `x :: xs` is `x`
followed by the elements of `xs` that are greater than `x`, in input order; and
on a non-empty `sorted` the step of `sort` appends the incoming record at the end
when it is greater than some record of `sorted` and leaves `sorted` as it is
otherwise. -/
theorem sort_keeps_greater_than_first :
    sort [] = [] ∧
    (∀ (x : GoString) (xs : List GoString),
      sort (x :: xs) = x :: xs.filter (fun s => decide (x < s))) ∧
    (∀ (sorted : List GoString) (s : GoString), sorted ≠ [] →
      sortStep sorted s = if ∃ v ∈ sorted, v < s then sorted ++ [s] else sorted) :=
  ⟨rfl, sort_cons, sortStep_eq⟩

/-- Witness of `sort_keeps_greater_than_first`: the records "b", "a", "c", "b". -/
theorem sort_keeps_greater_than_first_witness :
    sort ["b".toList, "a".toList, "c".toList, "b".toList] =
      "b".toList :: ["a".toList, "c".toList, "b".toList].filter
        (fun s => decide ("b".toList < s)) ∧
    sort ["b".toList, "a".toList, "c".toList, "b".toList] = ["b".toList, "c".toList] :=
  ⟨sort_keeps_greater_than_first.2.1 _ _, by decide⟩

/-! ## Lemmas on runs of `proc` without fault -/

theorem procLines_append_ok {a b o : List GoString} {st st2 : ProcState}
    (h : procLines st (a ++ b) = (o, .ok st2)) :
    ∃ o1 st1 o2, procLines st a = (o1, .ok st1) ∧ procLines st1 b = (o2, .ok st2) ∧
      o = o1 ++ o2 := by
  rw [procLines_append] at h
  cases ha : procLines st a with
  | mk o1 res =>
    rw [ha] at h
    cases res with
    | error e => cases h
    | ok st1 =>
      simp only [Prod.mk.injEq] at h
      exact ⟨o1, st1, (procLines st1 b).1, rfl, Prod.ext rfl h.2, h.1.symm⟩

theorem procLines_header_ok {s : GoString} {t o : List GoString} {st st2 : ProcState}
    (hk : isHeaderLine s = true) (h : procLines st (s :: t) = (o, .ok st2)) :
    ∃ sent z o1, saveZone st = .ok sent ∧ zoneOf s = some z ∧
      procLines ⟨z, st.latestOffset⟩ t = (o1, .ok st2) ∧ o = sent ++ o1 := by
  rw [procLines_cons, procLine_header st hk] at h
  cases hs : saveZone st with
  | error e => rw [hs] at h; cases h
  | ok sent =>
    cases hz : zoneOf s with
    | none => rw [hs, hz] at h; cases h
    | some z =>
      rw [hs, hz] at h
      simp only [Prod.mk.injEq] at h
      exact ⟨sent, z, (procLines ⟨z, st.latestOffset⟩ t).1, rfl, rfl, Prod.ext rfl h.2,
        h.1.symm⟩

theorem procLines_skips (mid : List GoString) (hm : ∀ s ∈ mid, isSkipLine s = true) :
    ∀ st : ProcState, procLines st mid = ([], .ok st) := by
  induction mid with
  | nil => intro st; rfl
  | cons a t ih =>
    intro st
    rw [procLines_skip_cons st t (hm a (by simp))]
    exact ih (fun x hx => hm x (List.mem_cons_of_mem _ hx)) st

theorem saveZone_zones_eq {st : ProcState} {sent : List GoString} (h : saveZone st = .ok sent)
    (hlo : st.latestOffset ≠ []) (hsp : ' ' ∉ st.currentZone) :
    sent.map recordZone = (if st.currentZone = [] then [] else [st.currentZone]) := by
  rcases saveZone_ok h with ⟨he, hc | hc⟩ | ⟨hz, _, hh, m, rest, _, he⟩
  · rw [he]; simp [hc]
  · exact absurd hc hlo
  · rw [he]; simp [hz, recordZone_Sprintf _ _ hsp]

/-- From a state that holds an offset, the loop sends a record for every block
it closes: the zone names of the records sent, followed by the zone still open,
are the zone open at the start followed by the zone names of the header lines. -/
theorem procLines_all_emitted (lines : List GoString) : ∀ (st st1 : ProcState),
    st.latestOffset ≠ [] → ' ' ∉ st.currentZone → (procLines st lines).2 = .ok st1 →
    st1.latestOffset ≠ [] ∧
    (procLines st lines).1.map recordZone ++
        (if st1.currentZone = [] then [] else [st1.currentZone]) =
      (if st.currentZone = [] then [] else [st.currentZone]) ++ headerZones lines := by
  induction lines with
  | nil =>
    intro st st1 hlo hsp h
    simp only [procLines] at h
    injection h with h
    subst h
    exact ⟨hlo, by simp [procLines, headerZones]⟩
  | cons s rest ih =>
    intro st st1 hlo hsp h
    rcases line_cases s with hk | hk | hk
    · rw [procLines_skip_cons st rest hk] at h ⊢
      rw [headerZones_cons_none rest (zoneOf_of_not_header (kinds_of_skip hk).1)]
      exact ih st st1 hlo hsp h
    · have e := procLines_cons st s rest
      rw [procLine_header st hk] at e
      cases hs : saveZone st with
      | error e1 =>
        rw [hs] at e
        rw [e] at h
        cases h
      | ok sent =>
        cases hz : zoneOf s with
        | none =>
          rw [hs, hz] at e
          rw [e] at h
          cases h
        | some z =>
          rw [hs, hz] at e
          simp only at e
          rw [e] at h ⊢
          have hzne := (zoneOf_spec hz).2.1
          obtain ⟨h1, h2⟩ := ih ⟨z, st.latestOffset⟩ st1 hlo (zoneOf_no_space hz) h
          refine ⟨h1, ?_⟩
          simp only [hzne, if_false] at h2
          rw [headerZones_cons_some rest hz]
          simp only [List.map_append, List.append_assoc]
          rw [h2, saveZone_zones_eq hs hlo hsp]
          simp
    · obtain ⟨off, _, hone, hp⟩ := procLine_cont st hk
      have e : procLines st (s :: rest) = procLines ⟨st.currentZone, off⟩ rest := by
        rw [procLines_cons, hp]
        simp
      rw [e] at h ⊢
      rw [headerZones_cons_none rest (zoneOf_of_not_header (kinds_of_cont hk).2)]
      exact ih ⟨st.currentZone, off⟩ st1 hone hsp h

theorem saveZone_ok_of_colon (st : ProcState)
    (h : st.latestOffset = [] ∨ ':' ∈ st.latestOffset) : ∃ sent, saveZone st = .ok sent := by
  rcases h with h | h
  · exact ⟨[], saveZone_of_nil_offset h⟩
  · obtain ⟨a, b, rest, hs⟩ := Split_of_mem h
    have hf : formatOffset st.latestOffset = .ok (Sprintf a b) := by
      simp only [formatOffset, hs]
    unfold saveZone
    by_cases hc : st.currentZone ≠ [] ∧ st.latestOffset ≠ []
    · rw [if_pos hc, hf]
      exact ⟨_, rfl⟩
    · rw [if_neg hc]
      exact ⟨_, rfl⟩

/-- The loop does not fault when every header line has two fields and every
offset text holds a colon. -/
theorem procLines_no_fault (lines : List GoString) :
    (∀ s ∈ lines, isHeaderLine s = true → 2 ≤ (Fields (TrimSpace s)).length) →
    (∀ s ∈ lines, ∀ f, offsetOf s = some f → ':' ∈ f) →
    ∀ st : ProcState, (st.latestOffset = [] ∨ ':' ∈ st.latestOffset) →
    ∃ o st1, procLines st lines = (o, .ok st1) ∧
      (st1.latestOffset = [] ∨ ':' ∈ st1.latestOffset) := by
  induction lines with
  | nil => intro _ _ st h; exact ⟨[], st, rfl, h⟩
  | cons s rest ih =>
    intro hh hc st hst
    have hh1 : ∀ x ∈ rest, isHeaderLine x = true → 2 ≤ (Fields (TrimSpace x)).length :=
      fun x hx => hh x (List.mem_cons_of_mem _ hx)
    have hc1 : ∀ x ∈ rest, ∀ f, offsetOf x = some f → ':' ∈ f :=
      fun x hx => hc x (List.mem_cons_of_mem _ hx)
    rcases line_cases s with hk | hk | hk
    · rw [procLines_skip_cons st rest hk]
      exact ih hh1 hc1 st hst
    · obtain ⟨sent, hs⟩ := saveZone_ok_of_colon st hst
      have hlen := hh s (by simp) hk
      cases hz : zoneOf s with
      | none =>
        simp only [zoneOf, hk, if_true] at hz
        have := List.getElem?_eq_none_iff.1 hz
        omega
      | some z =>
        obtain ⟨o, st1, hp, h1⟩ := ih hh1 hc1 ⟨z, st.latestOffset⟩ hst
        refine ⟨sent ++ o, st1, ?_, h1⟩
        rw [procLines_cons, procLine_header st hk, hs, hz]
        simp only [hp]
    · obtain ⟨off, hof, _, hp⟩ := procLine_cont st hk
      obtain ⟨o, st1, hp1, h1⟩ :=
        ih hh1 hc1 ⟨st.currentZone, off⟩ (Or.inr (hc s (by simp) off hof))
      refine ⟨o, st1, ?_, h1⟩
      rw [procLines_cons, hp]
      simp only [hp1, List.nil_append]

/-! ## Lemmas on the writing loop -/

theorem writeLoop_eq {σ : Type} (w : Writer σ) (vs : List GoString) : ∀ s : σ,
    writeLoop w s vs = vs.foldl (fun a v => (w.Write a (v ++ "\n".toList)).1) s := by
  induction vs with
  | nil => intro s; rfl
  | cons v t ih => intro s; simp only [writeLoop, List.foldl_cons, ih]

theorem writeLoop_logWriter (fails : GoString → Bool) (vs : List GoString) :
    ∀ log : List GoString,
    writeLoop (logWriter fails) log vs = log ++ vs.map (fun v => v ++ "\n".toList) := by
  induction vs with
  | nil => intro log; simp [writeLoop]
  | cons v t ih =>
    intro log
    have e : writeLoop (logWriter fails) log (v :: t) =
        writeLoop (logWriter fails) (log ++ [v ++ "\n".toList]) t := rfl
    rw [e, ih]
    simp

theorem writeLoop_bufWriter (vs : List GoString) : ∀ buf : GoString,
    writeLoop bufWriter buf vs = buf ++ (vs.map (fun v => v ++ "\n".toList)).flatten := by
  induction vs with
  | nil => intro buf; simp [writeLoop]
  | cons v t ih =>
    intro buf
    have e : writeLoop bufWriter buf (v :: t) =
        writeLoop bufWriter (buf ++ (v ++ "\n".toList)) t := rfl
    rw [e, ih]
    simp

/-! ## The claims on the latest offset, on safety and on `GetLookupTable` -/

/-- Claim C17: a header line leaves the latest offset as it is; when `proc` does
not fault, once the input read so far holds a continuation line, a record is sent
for every block closed afterwards, the block open at that point and the block of
every later header line; and a block without continuation line of its own, closed
by the next header line or by the end of input, is sent with the offset of the
last continuation line before its header line. -/
theorem stale_offset_reused :
    (∀ (st st1 : ProcState) (s : GoString), isHeaderLine s = true →
      (procLine st s).2 = .ok st1 → st1.latestOffset = st.latestOffset) ∧
    (∀ pre post : List GoString, (proc (pre ++ post)).fault = none → contOffsets pre ≠ [] →
      (proc (pre ++ post)).out.map recordZone =
        (procLines ⟨[], []⟩ pre).1.map recordZone ++
          ((headerZones pre).getLast?.toList ++ headerZones post)) ∧
    (∀ (pre mid post : List GoString) (hdr z off : GoString),
      (proc (pre ++ hdr :: (mid ++ post))).fault = none →
      zoneOf hdr = some z → (∀ s ∈ mid, isSkipLine s = true) →
      (post = [] ∨ ∃ s t, post = s :: t ∧ isHeaderLine s = true) →
      (contOffsets pre).getLast? = some off →
      ∃ hh m rest, Split off ':' = hh :: m :: rest ∧
        z ++ ' ' :: (hh ++ ' ' :: m) ∈ (proc (pre ++ hdr :: (mid ++ post))).out) := by
  refine ⟨?_, ?_, ?_⟩
  · intro st st1 s hk h
    rw [procLine_header st hk] at h
    cases hs : saveZone st with
    | error e => rw [hs] at h; cases h
    | ok sent =>
      cases hz : zoneOf s with
      | none => rw [hs, hz] at h; cases h
      | some z =>
        rw [hs, hz] at h
        simp only at h
        injection h with h
        subst h
        rfl
  · intro pre post hf hne
    obtain ⟨sent, st, last, hpl, hs, hout⟩ := proc_ok hf
    obtain ⟨o1, st1, o2, hp1, hp2, ho⟩ := procLines_append_ok hpl
    have hst := procLines_state pre ⟨[], []⟩ st1 (by rw [hp1])
    have hz1 := (procLines_zones pre ⟨[], []⟩ st1 (by simp) (by rw [hp1])).1
    have hlo : st1.latestOffset ≠ [] := by
      rw [hst.2]
      cases hg : (contOffsets pre).getLast? with
      | none => exact absurd (List.getLast?_eq_none_iff.1 hg) hne
      | some off =>
        obtain ⟨so, _, hso⟩ := List.mem_filterMap.1 (List.mem_of_getLast?_eq_some hg)
        simpa using (offsetOf_spec hso).2.1
    obtain ⟨h3, h4⟩ := procLines_all_emitted post st1 st hlo hz1 (by rw [hp2])
    have hz2 := (procLines_zones post st1 st hz1 (by rw [hp2])).1
    rw [hp2] at h4
    have h5 := saveZone_zones_eq hs h3 hz2
    have hpend : (if st1.currentZone = [] then [] else [st1.currentZone]) =
        (headerZones pre).getLast?.toList := by
      rw [hst.1]
      cases hg : (headerZones pre).getLast? with
      | none => simp
      | some z =>
        obtain ⟨sz, _, hsz⟩ := List.mem_filterMap.1 (List.mem_of_getLast?_eq_some hg)
        simp [(zoneOf_spec hsz).2.1]
    rw [hout, ho, hp1]
    simp only [List.map_append, List.append_assoc]
    rw [h5, h4, hpend]
  · intro pre mid post hdr z off hf hz hm hp ho
    obtain ⟨sent, st, last, hpl, hs, hout⟩ := proc_ok hf
    obtain ⟨o1, st1, o2, hp1, hp2, hoo⟩ := procLines_append_ok hpl
    obtain ⟨sent1, z1, o3, _, hz1, hp3, ho2⟩ := procLines_header_ok (zoneOf_spec hz).1 hp2
    rw [hz] at hz1
    injection hz1 with hz1
    subst hz1
    obtain ⟨o4, st2, o5, hp4, hp5, ho3⟩ := procLines_append_ok hp3
    rw [procLines_skips mid hm] at hp4
    simp only [Prod.mk.injEq, Except.ok.injEq] at hp4
    obtain ⟨ho4, hst2⟩ := hp4
    subst ho4 hst2
    have hst := (procLines_state pre ⟨[], []⟩ st1 (by rw [hp1])).2
    rw [ho] at hst
    simp only [Option.getD_some] at hst
    have hzne := (zoneOf_spec hz).2.1
    have hone : off ≠ [] := by
      obtain ⟨so, _, hso⟩ := List.mem_filterMap.1 (List.mem_of_getLast?_eq_some ho)
      exact (offsetOf_spec hso).2.1
    have key : ∀ sx, saveZone ⟨z, st1.latestOffset⟩ = .ok sx →
        ∃ hh m rest, Split off ':' = hh :: m :: rest ∧
          z ++ ' ' :: (hh ++ ' ' :: m) ∈ sx := by
      intro sx h
      rw [hst] at h
      rcases saveZone_ok h with ⟨_, hc | hc⟩ | ⟨_, _, hh, m, rest, hsp, he⟩
      · exact absurd hc hzne
      · exact absurd hc hone
      · exact ⟨hh, m, rest, hsp, by rw [he]; simp [Sprintf]⟩
    rcases hp with hp | ⟨s, t, hp, hks⟩
    · subst hp
      simp only [procLines, Prod.mk.injEq, Except.ok.injEq] at hp5
      obtain ⟨_, hst3⟩ := hp5
      subst hst3
      obtain ⟨hh, m, rest, hsp, hmem⟩ := key last hs
      exact ⟨hh, m, rest, hsp, by rw [hout]; exact List.mem_append_right _ hmem⟩
    · subst hp
      obtain ⟨sent2, z2, o6, hs2, _, _, ho5⟩ := procLines_header_ok hks hp5
      obtain ⟨hh, m, rest, hsp, hmem⟩ := key sent2 hs2
      refine ⟨hh, m, rest, hsp, ?_⟩
      rw [hout, hoo, ho2, ho3, ho5]
      simp only [List.mem_append]
      tauto

/-- Witness of `stale_offset_reused`: the block of `Lone/Zone` has no
continuation line and is sent with the offset `1:00` of the block before it. -/
theorem stale_offset_reused_witness :
    (proc (["Zone Foo/A\t0:00".toList, "\t1:00\t-\tFST".toList] ++
      "Zone Lone/Zone".toList :: (["# note".toList] ++ ["Zone Foo/C\t0:00".toList,
        "\t2:00\t-\tCST".toList]))).fault = none ∧
    ∃ hh m rest, Split "1:00".toList ':' = hh :: m :: rest ∧
      "Lone/Zone".toList ++ ' ' :: (hh ++ ' ' :: m) ∈
        (proc (["Zone Foo/A\t0:00".toList, "\t1:00\t-\tFST".toList] ++
          "Zone Lone/Zone".toList :: (["# note".toList] ++ ["Zone Foo/C\t0:00".toList,
            "\t2:00\t-\tCST".toList]))).out :=
  ⟨by decide, stale_offset_reused.2.2 _ _ _ _ _ _ (by decide) (by decide) (by decide)
    (Or.inr ⟨_, _, rfl, by decide⟩) (by decide)⟩

/-- Claim C18: when every header line has at least two white-space-delimited
fields and the first field of every continuation line holds a `:`, `proc`
completes without fault. -/
theorem proc_completes (lines : List GoString)
    (hh : ∀ s ∈ lines, isHeaderLine s = true → 2 ≤ (Fields (TrimSpace s)).length)
    (hc : ∀ s ∈ lines, isContLine s = true →
      ∃ f, (Fields (TrimSpace s))[0]? = some f ∧ ':' ∈ f) :
    (proc lines).fault = none := by
  have hc1 : ∀ s ∈ lines, ∀ f, offsetOf s = some f → ':' ∈ f := by
    intro s hs f hf
    have hk := (offsetOf_spec hf).1
    obtain ⟨g, hg, hcol⟩ := hc s hs hk
    simp only [offsetOf, hk, if_true, hg] at hf
    injection hf with hf
    subst hf
    exact hcol
  obtain ⟨o, st, hp, hst⟩ := procLines_no_fault lines hh hc1 ⟨[], []⟩ (Or.inl rfl)
  obtain ⟨last, hl⟩ := saveZone_ok_of_colon st hst
  simp only [proc, hp, hl]

/-- Witness of `proc_completes`: a comment, two blocks and an offset of three
fields. -/
theorem proc_completes_witness :
    (proc ["# note".toList, "Zone Foo/A\t0:00".toList, "\t1:00\t-\tFST".toList,
      "Zone Foo/C\t0:00".toList, "\t-0:12:12\t-\tLMT".toList]).fault = none :=
  proc_completes _ (by decide) (by decide)

/-- Claim C19: when `GetLookupTable` returns, the error it returns is `nil` and
the writer has received the calls `Write(v ++ "\n")` for the records `v` of
`sort (proc (extr r))`, in that order, and no other call, whatever the calls
returned: a writer that records its calls, failing or not, holds exactly these
arguments, and a buffer holds their concatenation. -/
theorem GetLookupTable_writes_table {σ : Type} (r : Reader) (w : Writer σ) (s st : σ)
    (err : GoError) (h : GetLookupTable r w s = .ok (st, err)) :
    err = none ∧
    st = (sort (proc (extr r).out).out).foldl
      (fun a v => (w.Write a (v ++ "\n".toList)).1) s ∧
    (∀ fails : GoString → Bool, GetLookupTable r (logWriter fails) [] =
      .ok ((sort (proc (extr r).out).out).map (fun v => v ++ "\n".toList), none)) ∧
    GetLookupTable r bufWriter [] =
      .ok (((sort (proc (extr r).out).out).map (fun v => v ++ "\n".toList)).flatten,
        none) := by
  unfold GetLookupTable at h ⊢
  cases hx : (extr r).fatal with
  | true => simp only [hx, if_true] at h; cases h
  | false =>
    cases hf : (proc (extr r).out).fault with
    | some e => simp only [hx, hf, Bool.false_eq_true, if_false] at h; cases h
    | none =>
      simp only [hx, hf, Bool.false_eq_true, if_false] at h ⊢
      simp only [Except.ok.injEq, Prod.mk.injEq] at h
      refine ⟨h.2.symm, ?_, ?_, ?_⟩
      · rw [← h.1, writeLoop_eq]
      · intro fails
        rw [writeLoop_logWriter]
        simp
      · rw [writeLoop_bufWriter]
        simp

/-- Witness of `GetLookupTable_writes_table`: an archive of one entry with two
blocks and a writer whose every call returns an error. -/
theorem GetLookupTable_writes_table_witness :
    GetLookupTable (.tar [("africa".toList, ["Zone Foo/A\t0:00".toList,
      "\t1:00\t-\tFST".toList, "Zone Foo/C\t0:00".toList, "\t2:00\t-\tCST".toList])] false)
      (logWriter (fun _ => true)) [] =
      .ok (["Foo/A 1 00\n".toList, "Foo/C 2 00\n".toList], none) ∧
    (none : GoError) = none :=
  ⟨by decide, (GetLookupTable_writes_table
    (.tar [("africa".toList, ["Zone Foo/A\t0:00".toList, "\t1:00\t-\tFST".toList,
      "Zone Foo/C\t0:00".toList, "\t2:00\t-\tCST".toList])] false) (logWriter (fun _ => true)) []
    ["Foo/A 1 00\n".toList, "Foo/C 2 00\n".toList] none (by decide)).1⟩

end Lutz
